import Mathlib

/-!
Verification development for the rocHPCG coloring / symmetric Gauss-Seidel core.

The definitions below are a shallow embedding of `src/src/ComputeSYMGS.cpp` and
`src/src/MultiColoring.cpp`.  Matrix values are modelled over `ℚ` (exact field
arithmetic standing in for `double`), column indices over `ℤ` (the ELL storage
uses `-1` as padding sentinel), and each GPU kernel launch is modelled as a
synchronous bulk update: every logical thread reads the pre-launch state and
the per-row results are written simultaneously.
-/

namespace RocHPCG

/-- ELL-format sparse matrix together with the coloring/block metadata that
`ComputeSYMGS` consumes.  `ell_col_ind p row` is the column stored in slot `p`
of `row` (the C code stores it at `p * m + row`), `ell_val p row` the value,
`inv_diag` the precomputed diagonal reciprocals, `diag_idx` the slot of the
diagonal entry, and `sizes`/`offsets`/`nblocks`/`ublocks`/`perm` the block
layout produced by the coloring engine. -/
structure SparseMatrix where
  m : ℕ
  n : ℕ
  ell_width : ℕ
  ell_col_ind : ℕ → ℕ → ℤ
  ell_val : ℕ → ℕ → ℚ
  inv_diag : ℕ → ℚ
  diag_idx : ℕ → ℕ
  nblocks : ℕ
  sizes : ℕ → ℕ
  offsets : ℕ → ℕ
  ublocks : ℕ
  perm : ℕ → ℕ

/-- Vector of values; indexed consistently with matrix rows/columns. -/
abbrev Vec : Type := ℕ → ℚ

/-- Per-row body of `kernel_symgs_sweep` (and of `kernel_symgs_interior`, which
differs only in taking `bound = m` instead of `bound = n`): starting from
`x[row]`, subtract `ell_val * y[col]` for every stored column with
`0 ≤ col < bound` and `col ≠ row`, then multiply by `inv_diag[row]`. -/
def sweepRow (A : SparseMatrix) (bound : ℕ) (x y : Vec) (row : ℕ) : ℚ :=
  ((List.range A.ell_width).foldl (fun sum p =>
      if 0 ≤ A.ell_col_ind p row ∧ A.ell_col_ind p row < (bound : ℤ) ∧
          A.ell_col_ind p row ≠ (row : ℤ) then
        sum - A.ell_val p row * y (A.ell_col_ind p row).toNat
      else sum) (x row)) * A.inv_diag row

/-- `kernel_symgs_sweep`: one parallel launch updating the rows
`[offset, offset + block_nrow)`; every thread reads the pre-launch vector `y`. -/
def kernel_symgs_sweep (A : SparseMatrix) (block_nrow offset : ℕ) (x y : Vec) : Vec :=
  fun j => if offset ≤ j ∧ j < offset + block_nrow then sweepRow A A.n x y j else y j

/-- `kernel_symgs_interior`: the block-0 variant; rows `[0, block_nrow)`, and the
column bound is `m` (local rows only) rather than `n`. -/
def kernel_symgs_interior (A : SparseMatrix) (block_nrow : ℕ) (x y : Vec) : Vec :=
  fun j => if j < block_nrow then sweepRow A A.m x y j else y j

/-- Per-row body of `kernel_forward_sweep_0`: scan only slots `p < diag_idx row`,
keep columns with `0 ≤ col < offset`, and divide by the stored diagonal value. -/
def forwardZeroRow (A : SparseMatrix) (offset : ℕ) (x y : Vec) (row : ℕ) : ℚ :=
  ((List.range (A.diag_idx row)).foldl (fun sum p =>
      if 0 ≤ A.ell_col_ind p row ∧ A.ell_col_ind p row < (offset : ℤ) then
        sum - A.ell_val p row * y (A.ell_col_ind p row).toNat
      else sum) (x row)) / A.ell_val (A.diag_idx row) row

/-- `kernel_forward_sweep_0` as a parallel launch over `[offset, offset + block_nrow)`. -/
def kernel_forward_sweep_0 (A : SparseMatrix) (block_nrow offset : ℕ) (x y : Vec) : Vec :=
  fun j => if offset ≤ j ∧ j < offset + block_nrow then forwardZeroRow A offset x y j else y j

/-- Per-row body of `kernel_backward_sweep_0`: start from `x[row] * diag_val`,
scan slots `p ∈ (diag_idx row, ell_width)`, keep columns with
`offset ≤ col < m`, and finally divide by the diagonal value. -/
def backwardZeroRow (A : SparseMatrix) (offset : ℕ) (x : Vec) (row : ℕ) : ℚ :=
  ((List.range' (A.diag_idx row + 1) (A.ell_width - (A.diag_idx row + 1))).foldl
      (fun sum p =>
        if (offset : ℤ) ≤ A.ell_col_ind p row ∧ A.ell_col_ind p row < (A.m : ℤ) then
          sum - A.ell_val p row * x (A.ell_col_ind p row).toNat
        else sum)
      (x row * A.ell_val (A.diag_idx row) row)) / A.ell_val (A.diag_idx row) row

/-- `kernel_backward_sweep_0` as a parallel launch over `[offset, offset + block_nrow)`. -/
def kernel_backward_sweep_0 (A : SparseMatrix) (block_nrow offset : ℕ) (x : Vec) : Vec :=
  fun j => if offset ≤ j ∧ j < offset + block_nrow then backwardZeroRow A offset x j else x j

/-- `kernel_pointwise_mult` as invoked by `ComputeSYMGSZeroGuess`: rows
`[0, size)` of the output get `r[row] * inv_diag[row]`. -/
def kernel_pointwise_mult (A : SparseMatrix) (size : ℕ) (r x : Vec) : Vec :=
  fun j => if j < size then r j * A.inv_diag j else x j

/-- Forward phase of `ComputeSYMGS` after processing the interior block and the
sweep blocks `1, …, i`; `fwdUpTo A r x (A.nblocks - 1)` is the full forward pass. -/
def fwdUpTo (A : SparseMatrix) (r x : Vec) (i : ℕ) : Vec :=
  (List.range' 1 i).foldl
    (fun y b => kernel_symgs_sweep A (A.sizes b) (A.offsets b) r y)
    (kernel_symgs_interior A (A.sizes 0) r x)

/-- Forward ("Solve L") phase of `ComputeSYMGS`: interior kernel on block 0,
then `kernel_symgs_sweep` on blocks `1, …, nblocks - 1` in ascending order. -/
def fwdPhase (A : SparseMatrix) (r x : Vec) : Vec :=
  fwdUpTo A r x (A.nblocks - 1)

/-- Backward ("Solve U") phase of `ComputeSYMGS`: `kernel_symgs_sweep` on blocks
`ublocks, …, 0` in descending order. -/
def bwdPhase (A : SparseMatrix) (r : Vec) (y : Vec) : Vec :=
  ((List.range (A.ublocks + 1)).reverse).foldl
    (fun y b => kernel_symgs_sweep A (A.sizes b) (A.offsets b) r y) y

/-- `ComputeSYMGS` (single-domain execution path): forward pass then backward
pass, overwriting the initial guess `x`. -/
def ComputeSYMGS (A : SparseMatrix) (r x : Vec) : Vec :=
  bwdPhase A r (fwdPhase A r x)

/-- Forward phase of `ComputeSYMGSZeroGuess` after the pointwise block-0 kernel
and the zero-guess sweep blocks `1, …, i`. -/
def zgFwdUpTo (A : SparseMatrix) (r x : Vec) (i : ℕ) : Vec :=
  (List.range' 1 i).foldl
    (fun y b => kernel_forward_sweep_0 A (A.sizes b) (A.offsets b) r y)
    (kernel_pointwise_mult A (A.sizes 0) r x)

/-- Forward phase of `ComputeSYMGSZeroGuess`. -/
def zgFwd (A : SparseMatrix) (r x : Vec) : Vec :=
  zgFwdUpTo A r x (A.nblocks - 1)

/-- Backward phase of `ComputeSYMGSZeroGuess`: `kernel_backward_sweep_0` on
blocks `ublocks, …, 0` in descending order. -/
def zgBwd (A : SparseMatrix) (y : Vec) : Vec :=
  ((List.range (A.ublocks + 1)).reverse).foldl
    (fun y b => kernel_backward_sweep_0 A (A.sizes b) (A.offsets b) y) y

/-- `ComputeSYMGSZeroGuess`: the dedicated fast path for a zero initial guess. -/
def ComputeSYMGSZeroGuess (A : SparseMatrix) (r x : Vec) : Vec :=
  zgBwd A (zgFwd A r x)

/-- Modelled from the spec: the row update of a naive sequential Gauss-Seidel
sweep, `x[row] ← (r[row] − Σ off-diagonal stored A[row,col]·x[col]) · invDiag[row]`.
This is the reference semantics the colored solver is compared against. -/
def gsRowValue (A : SparseMatrix) (r y : Vec) (row : ℕ) : ℚ :=
  (r row - Finset.sum (Finset.range A.ell_width) (fun p =>
      if 0 ≤ A.ell_col_ind p row ∧ A.ell_col_ind p row < (A.n : ℤ) ∧
          A.ell_col_ind p row ≠ (row : ℤ) then
        A.ell_val p row * y (A.ell_col_ind p row).toNat
      else 0)) * A.inv_diag row

/-- Modelled from the spec: one strictly-sequential row update. -/
def gsSeqStep (A : SparseMatrix) (r : Vec) (y : Vec) (row : ℕ) : Vec :=
  Function.update y row (gsRowValue A r y row)

/-- Modelled from the spec: a naive strictly-sequential symmetric Gauss-Seidel
sweep — rows `0, …, m-1` in ascending order, then rows `m-1, …, 0` in
descending order. -/
def naiveSYMGS (A : SparseMatrix) (r x : Vec) : Vec :=
  ((List.range A.m).reverse).foldl (gsSeqStep A r)
    ((List.range A.m).foldl (gsSeqStep A r) x)

/-- Halo (boundary) contribution structure: a second ELL-like storage holding,
for each halo row `i`, contributions from ghost columns to the local row
`halo_row_ind i`.  `halo_col_ind p i` is stored at `p * halo_rows + i`. -/
structure HaloMatrix where
  halo_rows : ℕ
  halo_row_ind : ℕ → ℕ
  halo_col_ind : ℕ → ℕ → ℤ
  halo_val : ℕ → ℕ → ℚ

/-- Per-halo-row sum of `kernel_symgs_halo`: `Σ −halo_val · y[col]` over stored
columns with `0 ≤ col < n`. -/
def haloRowSum (H : HaloMatrix) (halo_width n : ℕ) (y : Vec) (i : ℕ) : ℚ :=
  (List.range halo_width).foldl (fun sum p =>
      if 0 ≤ H.halo_col_ind p i ∧ H.halo_col_ind p i < (n : ℤ) then
        sum - H.halo_val p i * y (H.halo_col_ind p i).toNat
      else sum) 0

/-- `kernel_symgs_halo`: each halo row `i` targets position
`perm (halo_row_ind i)`; the target is updated only when it lies inside block 0
(`< block_nrow`), accumulating `haloRowSum · inv_diag (halo_row_ind i)`. -/
def kernel_symgs_halo (H : HaloMatrix) (halo_width n block_nrow : ℕ)
    (inv_diag : ℕ → ℚ) (perm : ℕ → ℕ) (y : Vec) : Vec :=
  fun j =>
    match (List.range H.halo_rows).find? (fun i => perm (H.halo_row_ind i) == j) with
    | some i =>
        if j < block_nrow then
          y j + haloRowSum H halo_width n y i * inv_diag (H.halo_row_ind i)
        else y j
    | none => y j

/-- The halo-corrector launch as issued by `ComputeSYMGS` in the distributed
branch: `halo_width := A.ell_width`, `n := A.n`, `block_nrow := A.sizes 0`. -/
def symgsHaloStage (A : SparseMatrix) (H : HaloMatrix) (y : Vec) : Vec :=
  kernel_symgs_halo H A.ell_width A.n (A.sizes 0) A.inv_diag A.perm y

/-! ### The Jones-Plassmann-Luby coloring engine (`MultiColoring.cpp`) -/

/-- Adjacency input of the coloring engine: `ind row p` is `mtxIndL[row * width + p]`
(`-1` padding allowed), `hash` the per-row pseudo-random weight `d_rowHash`. -/
structure Graph where
  m : ℕ
  width : ℕ
  ind : ℕ → ℕ → ℤ
  hash : ℕ → ℤ

/-- Neighbour slot `p` of `row` participates in the comparison of `kernel_jpl`:
the stored column is a valid non-diagonal local index whose current color is
`-1`, `c1` or `c2`. -/
def jplRelevant (G : Graph) (colors : ℕ → ℤ) (c1 c2 : ℤ) (row p : ℕ) : Bool :=
  decide (0 ≤ G.ind row p ∧ G.ind row p < (G.m : ℤ) ∧ G.ind row p ≠ (row : ℤ) ∧
    (colors (G.ind row p).toNat = -1 ∨ colors (G.ind row p).toNat = c1 ∨
      colors (G.ind row p).toNat = c2))

/-- `row` holds the strict local maximum hash among its relevant neighbourhood. -/
def rowIsMaxB (G : Graph) (colors : ℕ → ℤ) (c1 c2 : ℤ) (row : ℕ) : Bool :=
  (List.range G.width).all fun p =>
    !(jplRelevant G colors c1 c2 row p) ||
      decide (G.hash (G.ind row p).toNat < G.hash row)

/-- `row` holds the strict local minimum hash among its relevant neighbourhood. -/
def rowIsMinB (G : Graph) (colors : ℕ → ℤ) (c1 c2 : ℤ) (row : ℕ) : Bool :=
  (List.range G.width).all fun p =>
    !(jplRelevant G colors c1 c2 row p) ||
      decide (G.hash row < G.hash (G.ind row p).toNat)

/-- One launch of `kernel_jpl`: every still-uncolored row gets `c1` if it is the
strict local max, else `c2` if it is the strict local min, else stays `-1`.
All threads read the pre-launch colors. -/
def kernel_jpl (G : Graph) (c1 c2 : ℤ) (colors : ℕ → ℤ) : ℕ → ℤ :=
  fun row =>
    if row < G.m ∧ colors row = -1 then
      if rowIsMaxB G colors c1 c2 row then c1
      else if rowIsMinB G colors c1 c2 row then c2
      else -1
    else colors row

/-- The two `kernel_count_color` launches: number of rows currently holding
color `c`. -/
def countColor (m : ℕ) (colors : ℕ → ℤ) (c : ℤ) : ℕ :=
  ((List.range m).filter (fun i => colors i == c)).length

/-- Host-side state of the `JPLColoring` round loop: current colors, the running
`colored` counter, the number of recorded blocks, the recorded block sizes and
offsets, and the position `t` in the stream of `rand()` draws. -/
structure ColState where
  colors : ℕ → ℤ
  colored : ℕ
  nblocks : ℕ
  sizes : ℕ → ℕ
  offsets : ℕ → ℕ
  t : ℕ

/-- First candidate color of a round: drawn from the palette `{0..7}` while
fewer than 8 blocks are recorded, afterwards just `nblocks`. -/
def cand1 (rng : ℕ → ℕ) (s : ColState) : ℤ :=
  if s.nblocks < 8 then ((rng s.t % 8 : ℕ) : ℤ) else (s.nblocks : ℤ)

/-- Second candidate color of a round. -/
def cand2 (rng : ℕ → ℕ) (s : ColState) : ℤ :=
  if s.nblocks < 8 then ((rng (s.t + 1) % 8 : ℕ) : ℤ) else ((s.nblocks : ℤ) + 1)

/-- Initial state of the round loop (`colors` memset to `-1`, `offsets[0] = 0`). -/
def initColState : ColState :=
  { colors := fun _ => -1, colored := 0, nblocks := 0
    sizes := fun _ => 0, offsets := fun _ => 0, t := 0 }

/-- One iteration of the `JPLColoring` round loop: pick the two candidate
colors, launch `kernel_jpl`, count the holders of each candidate, record the
two counts as new block sizes, accumulate offsets and the `colored` counter. -/
def jplRound (G : Graph) (rng : ℕ → ℕ) (s : ColState) : ColState :=
  let c1 := cand1 rng s
  let c2 := cand2 rng s
  let colors := kernel_jpl G c1 c2 s.colors
  let s1 := countColor G.m colors c1
  let s2 := countColor G.m colors c2
  { colors := colors
    colored := s.colored + s1 + s2
    nblocks := s.nblocks + 2
    sizes := fun b => if b = s.nblocks then s1 else if b = s.nblocks + 1 then s2 else s.sizes b
    offsets := fun b =>
      if b = s.nblocks + 1 then s.colored + s1
      else if b = s.nblocks + 2 then s.colored + s1 + s2
      else s.offsets b
    t := s.t + 2 }

/-- State after `k` iterations of the round loop.  The loop of `JPLColoring`
runs `jplRound` repeatedly and exits as soon as `colored = m`. -/
def jplIter (G : Graph) (rng : ℕ → ℕ) : ℕ → ColState
  | 0 => initColState
  | k + 1 => jplRound G rng (jplIter G rng k)

/-! ### Structural predicates about the block layout and the ELL storage -/

/-- `j` is a row of color block `b`. -/
def inBlock (A : SparseMatrix) (b j : ℕ) : Prop :=
  A.offsets b ≤ j ∧ j < A.offsets b + A.sizes b

/-- The block table partitions the row range `[0, m)` into consecutive blocks:
`offsets 0 = 0`, each offset is the previous offset plus the previous size, and
the blocks exhaust all rows.  `JPLColoring` establishes exactly this layout. -/
def validBlocks (A : SparseMatrix) : Prop :=
  A.offsets 0 = 0 ∧ (∀ b < A.nblocks, A.offsets (b + 1) = A.offsets b + A.sizes b) ∧
    A.offsets A.nblocks = A.m

/-- Block `b` is independent: no row of the block has a stored valid
off-diagonal column pointing back into the block.  This is the per-block
consequence of a proper distance-1 coloring. -/
def properBlock (A : SparseMatrix) (b : ℕ) : Prop :=
  ∀ row < A.offsets b + A.sizes b, A.offsets b ≤ row →
    ∀ p < A.ell_width,
      0 ≤ A.ell_col_ind p row → A.ell_col_ind p row < (A.n : ℤ) →
        A.ell_col_ind p row ≠ (row : ℤ) →
          ¬ inBlock A b (A.ell_col_ind p row).toNat

/-- All blocks are independent. -/
def properBlocks (A : SparseMatrix) : Prop := ∀ b < A.nblocks, properBlock A b

/-- The ELL rows are stored in triangular order around the diagonal slot:
the diagonal slot holds the row index, slots before it hold strictly smaller
columns, slots after it hold strictly larger columns or padding. -/
def triangularELL (A : SparseMatrix) : Prop :=
  ∀ row < A.m,
    A.diag_idx row < A.ell_width ∧
    A.ell_col_ind (A.diag_idx row) row = (row : ℤ) ∧
    (∀ p < A.diag_idx row, A.ell_col_ind p row < (row : ℤ)) ∧
    (∀ p, A.diag_idx row < p → p < A.ell_width →
      (A.ell_col_ind p row < 0 ∨ (row : ℤ) < A.ell_col_ind p row))

/-- `inv_diag` really holds the reciprocals of the stored diagonal values. -/
def invDiagOk (A : SparseMatrix) : Prop :=
  ∀ row < A.m, A.inv_diag row = (A.ell_val (A.diag_idx row) row)⁻¹

/-- All stored diagonal values are nonzero. -/
def diagNZ (A : SparseMatrix) : Prop :=
  ∀ row < A.m, A.ell_val (A.diag_idx row) row ≠ 0

/-! ### Hypothesis predicates about the coloring input -/

/-- The adjacency lists are symmetric: every stored valid off-diagonal entry
has a reverse entry. -/
def SymAdj (G : Graph) : Prop :=
  ∀ row < G.m, ∀ p < G.width,
    0 ≤ G.ind row p → G.ind row p < (G.m : ℤ) → G.ind row p ≠ (row : ℤ) →
      ∃ q, q < G.width ∧ G.ind (G.ind row p).toNat q = (row : ℤ)

/-- The per-row hash values are pairwise distinct. -/
def InjHash (G : Graph) : Prop :=
  ∀ i < G.m, ∀ j < G.m, G.hash i = G.hash j → i = j

/-- First candidate color nominated in round `k` of the loop. -/
def roundCand1 (G : Graph) (rng : ℕ → ℕ) (k : ℕ) : ℤ :=
  cand1 rng (jplIter G rng k)

/-- Second candidate color nominated in round `k` of the loop. -/
def roundCand2 (G : Graph) (rng : ℕ → ℕ) (k : ℕ) : ℤ :=
  cand2 rng (jplIter G rng k)

/-- The candidate colors nominated during the first `K` rounds are pairwise
distinct (across rounds and within each round). -/
def DistinctCands (G : Graph) (rng : ℕ → ℕ) (K : ℕ) : Prop :=
  ∀ j < K, ∀ k < K,
    (roundCand1 G rng j = roundCand1 G rng k → j = k) ∧
    (roundCand2 G rng j = roundCand2 G rng k → j = k) ∧
    roundCand1 G rng j ≠ roundCand2 G rng k

/-- All candidate colors ever nominated are pairwise distinct. -/
def DistinctCandsAll (G : Graph) (rng : ℕ → ℕ) : Prop :=
  ∀ K, DistinctCands G rng K

/-! ### Concrete instances used by counterexamples and witnesses -/

/-- Pentagon graph `0-1-2-3-4-0` with hashes `10, 5, 3, 1, 7`; adjacency is
symmetric and well-formed. -/
def pentG : Graph :=
  { m := 5, width := 3
    ind := fun row p =>
      match row, p with
      | 0, 0 => 0 | 0, 1 => 1 | 0, 2 => 4
      | 1, 0 => 1 | 1, 1 => 0 | 1, 2 => 2
      | 2, 0 => 2 | 2, 1 => 1 | 2, 2 => 3
      | 3, 0 => 3 | 3, 1 => 2 | 3, 2 => 4
      | 4, 0 => 4 | 4, 1 => 3 | 4, 2 => 0
      | _, _ => -1
    hash := fun i => match i with | 0 => 10 | 1 => 5 | 2 => 3 | 3 => 1 | 4 => 7 | _ => 0 }

/-- Random stream nominating colors `(3,5)` in round 0 and `(6,3)` in round 1:
color `3` is reused. -/
def pentRng : ℕ → ℕ := fun t => match t with | 0 => 3 | 1 => 5 | 2 => 6 | 3 => 3 | _ => 0

/-- Three rows: `0` and `1` adjacent with equal hashes, `2` isolated. -/
def tieG3 : Graph :=
  { m := 3, width := 2
    ind := fun row p =>
      match row, p with
      | 0, 0 => 0 | 0, 1 => 1
      | 1, 0 => 1 | 1, 1 => 0
      | 2, 0 => 2 | 2, 1 => -1
      | _, _ => -1
    hash := fun i => match i with | 0 => 5 | 1 => 5 | 2 => 1 | _ => 0 }

/-- Random stream nominating `(3,5)`, `(3,0)`, `(3,1)`: color `3` is counted in
three different rounds. -/
def tieRng3 : ℕ → ℕ :=
  fun t => match t with | 0 => 3 | 1 => 5 | 2 => 3 | 3 => 0 | 4 => 3 | 5 => 1 | _ => 2

/-- Two adjacent rows with equal hashes: neither is ever a strict local
extremum, so no round colors anything. -/
def tieG2 : Graph :=
  { m := 2, width := 2
    ind := fun row p =>
      match row, p with
      | 0, 0 => 0 | 0, 1 => 1
      | 1, 0 => 1 | 1, 1 => 0
      | _, _ => -1
    hash := fun _ => 7 }

/-- Path graph on 10 vertices with hashes `0, …, 9`: every round colors exactly
the two extreme uncolored vertices, so 5 rounds are needed. -/
def pathG : Graph :=
  { m := 10, width := 3
    ind := fun row p =>
      if row < 10 then
        match p with
        | 0 => (row : ℤ) - 1
        | 1 => (row : ℤ)
        | 2 => if row = 9 then -1 else (row : ℤ) + 1
        | _ => -1
      else -1
    hash := fun i => (i : ℤ) }

/-- Single isolated vertex. -/
def oneG : Graph :=
  { m := 1, width := 1, ind := fun _ _ => 0, hash := fun _ => 0 }

/-- Two adjacent rows with distinct hashes `1 < 2`. -/
def twoG : Graph :=
  { m := 2, width := 2
    ind := fun row p =>
      match row, p with
      | 0, 0 => 0 | 0, 1 => 1
      | 1, 0 => 1 | 1, 1 => 0
      | _, _ => -1
    hash := fun i => match i with | 0 => 2 | 1 => 1 | _ => 0 }

/-- Properly blocked 4-row test matrix (a permuted path graph with diagonal 2
and off-diagonal −1): blocks `{0,1}` and `{2,3}`. -/
def Atest (ub : ℕ) : SparseMatrix :=
  { m := 4, n := 4, ell_width := 3
    ell_col_ind := fun p row =>
      match row, p with
      | 0, 0 => 0 | 0, 1 => 2 | 0, 2 => -1
      | 1, 0 => 1 | 1, 1 => 2 | 1, 2 => 3
      | 2, 0 => 0 | 2, 1 => 1 | 2, 2 => 2
      | 3, 0 => 1 | 3, 1 => 3 | 3, 2 => -1
      | _, _ => -1
    ell_val := fun p row =>
      match row, p with
      | 0, 0 => 2 | 0, 1 => -1
      | 1, 0 => 2 | 1, 1 => -1 | 1, 2 => -1
      | 2, 0 => -1 | 2, 1 => -1 | 2, 2 => 2
      | 3, 0 => -1 | 3, 1 => 2
      | _, _ => 0
    inv_diag := fun _ => 1/2
    diag_idx := fun row => match row with | 0 => 0 | 1 => 0 | 2 => 2 | 3 => 1 | _ => 0
    nblocks := 2
    sizes := fun b => match b with | 0 => 2 | 1 => 2 | _ => 0
    offsets := fun b => match b with | 0 => 0 | 1 => 2 | _ => 4
    ublocks := ub
    perm := id }

/-- Test right-hand side for `Atest`. -/
def rts : Vec := fun j => match j with | 0 => 1 | 1 => 2 | 2 => 3 | 3 => 4 | _ => 0

/-- Test initial guess for `Atest`. -/
def xts : Vec := fun j => match j with | 0 => 1 | 1 => -1 | 2 => 2 | 3 => 0 | _ => 0

/-- Identity matrix on three rows, one row per block, except that row 1 also
stores the off-diagonal entry `(1,2)` with value 1. -/
def Ac4 : SparseMatrix :=
  { m := 3, n := 3, ell_width := 2
    ell_col_ind := fun p row =>
      match row, p with
      | 0, 0 => 0 | 1, 0 => 1 | 1, 1 => 2 | 2, 0 => 2
      | _, _ => -1
    ell_val := fun p row =>
      match row, p with
      | 0, 0 => 1 | 1, 0 => 1 | 1, 1 => 1 | 2, 0 => 1
      | _, _ => 0
    inv_diag := fun _ => 1
    diag_idx := fun _ => 0
    nblocks := 3
    sizes := fun _ => 1
    offsets := fun b => b
    ublocks := 2
    perm := id }

/-- Initial guess whose entry 2 is nonzero, exposing that the forward sweep of
`ComputeSYMGS` does read columns at or above the block offset. -/
def xc4 : Vec := fun j => if j = 2 then 5 else 0

/-- Matrix for the halo counterexample: one local row per block (two blocks),
`sizes 0 = 1`, and a permutation sending row 0 to position 1 (outside block 0). -/
def Ah9 : SparseMatrix :=
  { m := 2, n := 3, ell_width := 1
    ell_col_ind := fun _ row => (row : ℤ)
    ell_val := fun _ _ => 1
    inv_diag := fun _ => 1
    diag_idx := fun _ => 0
    nblocks := 2
    sizes := fun _ => 1
    offsets := fun b => b
    ublocks := 1
    perm := fun j => match j with | 0 => 1 | 1 => 0 | _ => j }

/-- Halo structure for the counterexample: one halo row targeting local row 0,
whose single stored ghost column is column 2 with value 1. -/
def Hh9 : HaloMatrix :=
  { halo_rows := 1
    halo_row_ind := fun _ => 0
    halo_col_ind := fun _ _ => 2
    halo_val := fun _ _ => 1 }

/-- Vector whose ghost entry (column 2) holds 5. -/
def yh9 : Vec := fun j => if j = 2 then 5 else 0

/-- Matrix for the halo witness: same as `Ah9` but with the identity
permutation, so halo row 0 targets position 0 inside block 0. -/
def Ah9w : SparseMatrix :=
  { m := 2, n := 3, ell_width := 1
    ell_col_ind := fun _ row => (row : ℤ)
    ell_val := fun _ _ => 1
    inv_diag := fun _ => 1
    diag_idx := fun _ => 0
    nblocks := 2
    sizes := fun _ => 1
    offsets := fun b => b
    ublocks := 1
    perm := id }

/-- The contribution of slot `p` of `row` in a `sweepRow` update with column
bound `bound`, reading neighbour values from `y`. -/
def sweepTerm (A : SparseMatrix) (bound : ℕ) (y : Vec) (row p : ℕ) : ℚ :=
  if 0 ≤ A.ell_col_ind p row ∧ A.ell_col_ind p row < (bound : ℤ) ∧
      A.ell_col_ind p row ≠ (row : ℤ) then
    A.ell_val p row * y (A.ell_col_ind p row).toNat
  else 0

/-- The contribution of slot `p` of `row` in a `forwardZeroRow` update with
block offset `offset`. -/
def fwdZeroTerm (A : SparseMatrix) (offset : ℕ) (y : Vec) (row p : ℕ) : ℚ :=
  if 0 ≤ A.ell_col_ind p row ∧ A.ell_col_ind p row < (offset : ℤ) then
    A.ell_val p row * y (A.ell_col_ind p row).toNat
  else 0

/-- The contribution of slot `p` of `row` in a `backwardZeroRow` update with
block offset `offset`. -/
def bwdZeroTerm (A : SparseMatrix) (offset : ℕ) (y : Vec) (row p : ℕ) : ℚ :=
  if (offset : ℤ) ≤ A.ell_col_ind p row ∧ A.ell_col_ind p row < (A.m : ℤ) then
    A.ell_val p row * y (A.ell_col_ind p row).toNat
  else 0

/-- Fold of `kernel_symgs_sweep` over blocks `0, …, i-1` in ascending order. -/
def blocksFwd (A : SparseMatrix) (r : Vec) (i : ℕ) (x : Vec) : Vec :=
  (List.range i).foldl
    (fun y b => kernel_symgs_sweep A (A.sizes b) (A.offsets b) r y) x

/-- Fold of `kernel_symgs_sweep` over blocks `i-1, …, 0` in descending order;
`bwdPhase` is `blocksBwd A r (A.ublocks + 1)`. -/
def blocksBwd (A : SparseMatrix) (r : Vec) (i : ℕ) (y : Vec) : Vec :=
  ((List.range i).reverse).foldl
    (fun y b => kernel_symgs_sweep A (A.sizes b) (A.offsets b) r y) y

/-- Fold of `kernel_backward_sweep_0` over blocks `i-1, …, 0` in descending
order; `zgBwd` is `zgBwdFrom A (A.ublocks + 1)`. -/
def zgBwdFrom (A : SparseMatrix) (i : ℕ) (y : Vec) : Vec :=
  ((List.range i).reverse).foldl
    (fun y b => kernel_backward_sweep_0 A (A.sizes b) (A.offsets b) y) y

/-- Rows of `[0, m)` currently holding a color. -/
def coloredSet (G : Graph) (colors : ℕ → ℤ) : Finset ℕ :=
  (Finset.range G.m).filter (fun i => ¬ colors i = -1)

/-- Rows of `[0, m)` still uncolored. -/
def uncoloredSet (G : Graph) (colors : ℕ → ℤ) : Finset ℕ :=
  (Finset.range G.m).filter (fun i => colors i = -1)

/-! ### Fold-to-sum bridges -/

lemma foldl_ite_sub_range (w : ℕ) (init : ℚ) (P : ℕ → Prop) [DecidablePred P] (g : ℕ → ℚ) :
    (List.range w).foldl (fun s p => if P p then s - g p else s) init
      = init - Finset.sum (Finset.range w) (fun p => if P p then g p else 0) := by
  induction w with
  | zero => simp
  | succ n ih =>
      rw [List.range_succ, List.foldl_append, ih, Finset.sum_range_succ]
      by_cases h : P n <;> simp [h] <;> ring

lemma foldl_ite_sub_range' (a len : ℕ) (init : ℚ) (P : ℕ → Prop) [DecidablePred P]
    (g : ℕ → ℚ) :
    (List.range' a len).foldl (fun s p => if P p then s - g p else s) init
      = init - Finset.sum (Finset.Ico a (a + len)) (fun p => if P p then g p else 0) := by
  induction len with
  | zero => simp
  | succ n ih =>
      rw [List.range'_concat, List.foldl_append]
      simp only [Nat.one_mul]
      have hle : a ≤ a + n := Nat.le_add_right a n
      rw [ih, show a + (n + 1) = (a + n) + 1 from rfl, Finset.sum_Ico_succ_top hle]
      by_cases h : P (a + n) <;> simp [h] <;> ring

lemma sweepRow_eq (A : SparseMatrix) (bound : ℕ) (x y : Vec) (row : ℕ) :
    sweepRow A bound x y row =
      (x row - Finset.sum (Finset.range A.ell_width) (sweepTerm A bound y row)) *
        A.inv_diag row := by
  unfold sweepRow sweepTerm
  rw [foldl_ite_sub_range]

lemma sweepRow_eq_gsRow (A : SparseMatrix) (r y : Vec) (row : ℕ) :
    sweepRow A A.n r y row = gsRowValue A r y row := by
  rw [sweepRow_eq]; rfl

lemma forwardZeroRow_eq (A : SparseMatrix) (offset : ℕ) (x y : Vec) (row : ℕ) :
    forwardZeroRow A offset x y row =
      (x row - Finset.sum (Finset.range (A.diag_idx row)) (fwdZeroTerm A offset y row)) /
        A.ell_val (A.diag_idx row) row := by
  unfold forwardZeroRow fwdZeroTerm
  rw [foldl_ite_sub_range]

lemma backwardZeroRow_eq (A : SparseMatrix) (offset : ℕ) (x : Vec) (row : ℕ)
    (hd : A.diag_idx row < A.ell_width) :
    backwardZeroRow A offset x row =
      (x row * A.ell_val (A.diag_idx row) row -
        Finset.sum (Finset.Ico (A.diag_idx row + 1) A.ell_width) (bwdZeroTerm A offset x row)) /
        A.ell_val (A.diag_idx row) row := by
  unfold backwardZeroRow bwdZeroTerm
  rw [foldl_ite_sub_range']
  have : A.diag_idx row + 1 + (A.ell_width - (A.diag_idx row + 1)) = A.ell_width := by omega
  rw [this]

/-! ### Parallel block updates versus sequential row updates -/

lemma gsRowValue_congr (A : SparseMatrix) (r : Vec) {y y' : Vec} (row : ℕ)
    (h : ∀ p < A.ell_width,
      0 ≤ A.ell_col_ind p row → A.ell_col_ind p row < (A.n : ℤ) →
        A.ell_col_ind p row ≠ (row : ℤ) →
          y (A.ell_col_ind p row).toNat = y' (A.ell_col_ind p row).toNat) :
    gsRowValue A r y row = gsRowValue A r y' row := by
  unfold gsRowValue
  have hs : ∀ p ∈ Finset.range A.ell_width,
      (if 0 ≤ A.ell_col_ind p row ∧ A.ell_col_ind p row < (A.n : ℤ) ∧
          A.ell_col_ind p row ≠ (row : ℤ) then
        A.ell_val p row * y (A.ell_col_ind p row).toNat else 0)
      = (if 0 ≤ A.ell_col_ind p row ∧ A.ell_col_ind p row < (A.n : ℤ) ∧
          A.ell_col_ind p row ≠ (row : ℤ) then
        A.ell_val p row * y' (A.ell_col_ind p row).toNat else 0) := by
    intro p hp
    rw [Finset.mem_range] at hp
    by_cases hc : 0 ≤ A.ell_col_ind p row ∧ A.ell_col_ind p row < (A.n : ℤ) ∧
        A.ell_col_ind p row ≠ (row : ℤ)
    · rw [if_pos hc, if_pos hc, h p hp hc.1 hc.2.1 hc.2.2]
    · rw [if_neg hc, if_neg hc]
  rw [Finset.sum_congr rfl hs]

lemma foldl_gsSeqStep_block (A : SparseMatrix) (r : Vec) (b : ℕ) (hp : properBlock A b) :
    ∀ (l : List ℕ) (y : Vec), l.Nodup → (∀ j ∈ l, inBlock A b j) →
      l.foldl (gsSeqStep A r) y = fun j => if j ∈ l then gsRowValue A r y j else y j := by
  intro l
  induction l with
  | nil => intro y _ _; funext j; simp
  | cons a t ih =>
      intro y hnd hmem
      have ha : inBlock A b a := hmem a (by simp)
      rw [List.foldl_cons,
        ih (gsSeqStep A r y a) (List.nodup_cons.mp hnd).2
          (fun j hj => hmem j (List.mem_cons_of_mem a hj))]
      funext j
      by_cases hjt : j ∈ t
      · have hjb : inBlock A b j := hmem j (List.mem_cons_of_mem a hjt)
        have hjl : j ∈ a :: t := List.mem_cons_of_mem a hjt
        rw [if_pos hjt, if_pos hjl]
        apply gsRowValue_congr
        intro p hpw h0 hn hne
        have hcol : ¬ inBlock A b (A.ell_col_ind p j).toNat :=
          hp j hjb.2 hjb.1 p hpw h0 hn hne
        exact Function.update_noteq (fun heq => hcol (by rw [heq]; exact ha)) _ y
      · by_cases hja : j = a
        · subst hja
          rw [if_neg hjt, if_pos (List.mem_cons_self j t)]
          exact Function.update_same j _ y
        · have hjl : j ∉ a :: t := by simp [hja, hjt]
          rw [if_neg hjt, if_neg hjl]
          exact Function.update_noteq hja _ y

lemma kernel_symgs_sweep_eq_bulk (A : SparseMatrix) (r y : Vec) (b : ℕ) :
    kernel_symgs_sweep A (A.sizes b) (A.offsets b) r y
      = fun j => if j ∈ List.range' (A.offsets b) (A.sizes b) then gsRowValue A r y j
          else y j := by
  funext j
  unfold kernel_symgs_sweep
  by_cases h : A.offsets b ≤ j ∧ j < A.offsets b + A.sizes b
  · rw [if_pos h, if_pos (List.mem_range'_1.mpr h), sweepRow_eq_gsRow]
  · rw [if_neg h, if_neg (fun hm => h (List.mem_range'_1.mp hm))]

lemma blockStep_eq_seq (A : SparseMatrix) (r : Vec) (b : ℕ) (hp : properBlock A b) (y : Vec) :
    kernel_symgs_sweep A (A.sizes b) (A.offsets b) r y
      = (List.range' (A.offsets b) (A.sizes b)).foldl (gsSeqStep A r) y := by
  rw [kernel_symgs_sweep_eq_bulk,
    foldl_gsSeqStep_block A r b hp _ y (List.nodup_range' _ _)
      (fun j hj => List.mem_range'_1.mp hj)]

lemma blockStep_eq_seq_rev (A : SparseMatrix) (r : Vec) (b : ℕ) (hp : properBlock A b)
    (y : Vec) :
    kernel_symgs_sweep A (A.sizes b) (A.offsets b) r y
      = ((List.range' (A.offsets b) (A.sizes b)).reverse).foldl (gsSeqStep A r) y := by
  rw [kernel_symgs_sweep_eq_bulk,
    foldl_gsSeqStep_block A r b hp _ y (List.nodup_reverse.mpr (List.nodup_range' _ _))
      (fun j hj => List.mem_range'_1.mp (List.mem_reverse.mp hj))]
  funext j
  by_cases h : j ∈ List.range' (A.offsets b) (A.sizes b)
  · rw [if_pos h, if_pos (List.mem_reverse.mpr h)]
  · rw [if_neg h, if_neg (fun hm => h (List.mem_reverse.mp hm))]

lemma blocksFwd_succ (A : SparseMatrix) (r x : Vec) (i : ℕ) :
    blocksFwd A r (i + 1) x
      = kernel_symgs_sweep A (A.sizes i) (A.offsets i) r (blocksFwd A r i x) := by
  unfold blocksFwd
  rw [List.range_succ, List.foldl_append]
  rfl

lemma blocksBwd_succ (A : SparseMatrix) (r y : Vec) (i : ℕ) :
    blocksBwd A r (i + 1) y
      = blocksBwd A r i (kernel_symgs_sweep A (A.sizes i) (A.offsets i) r y) := by
  unfold blocksBwd
  rw [List.range_succ, List.reverse_append]
  rfl

lemma zgBwdFrom_succ (A : SparseMatrix) (y : Vec) (i : ℕ) :
    zgBwdFrom A (i + 1) y
      = zgBwdFrom A i (kernel_backward_sweep_0 A (A.sizes i) (A.offsets i) y) := by
  unfold zgBwdFrom
  rw [List.range_succ, List.reverse_append]
  rfl

lemma offsets_mono (A : SparseMatrix) (hv : validBlocks A) :
    ∀ b ≤ A.nblocks, ∀ a ≤ b, A.offsets a ≤ A.offsets b := by
  intro b
  induction b with
  | zero =>
      intro _ a ha
      have ha0 : a = 0 := Nat.le_zero.mp ha
      rw [ha0]
  | succ n ih =>
      intro hn1 a ha
      rcases Nat.eq_or_lt_of_le ha with h | h
      · rw [h]
      · have hnn : n < A.nblocks := hn1
        calc A.offsets a ≤ A.offsets n := ih (Nat.le_of_lt hnn) a (by omega)
          _ ≤ A.offsets n + A.sizes n := Nat.le_add_right _ _
          _ = A.offsets (n + 1) := (hv.2.1 n hnn).symm

lemma range'_zero_split (off size : ℕ) :
    List.range' 0 (off + size) = List.range' 0 off ++ List.range' off size := by
  rw [Nat.add_comm off size, ← List.range'_append 0 off size 1]
  norm_num

lemma blocksFwd_eq_seq (A : SparseMatrix) (r x : Vec) (hv : validBlocks A)
    (hp : properBlocks A) :
    ∀ i ≤ A.nblocks,
      blocksFwd A r i x = (List.range' 0 (A.offsets i)).foldl (gsSeqStep A r) x := by
  intro i
  induction i with
  | zero => intro _; unfold blocksFwd; rw [hv.1]; rfl
  | succ n ih =>
      intro hn1
      have hnn : n < A.nblocks := hn1
      rw [blocksFwd_succ, ih (Nat.le_of_lt hnn), hv.2.1 n hnn, range'_zero_split,
        List.foldl_append]
      exact blockStep_eq_seq A r n (hp n hnn) _

lemma blocksBwd_eq_seq (A : SparseMatrix) (r : Vec) (hv : validBlocks A)
    (hp : properBlocks A) :
    ∀ i ≤ A.nblocks, ∀ y : Vec,
      blocksBwd A r i y = ((List.range' 0 (A.offsets i)).reverse).foldl (gsSeqStep A r) y := by
  intro i
  induction i with
  | zero => intro _ y; unfold blocksBwd; rw [hv.1]; rfl
  | succ n ih =>
      intro hn1 y
      have hnn : n < A.nblocks := hn1
      rw [blocksBwd_succ, ih (Nat.le_of_lt hnn), hv.2.1 n hnn, range'_zero_split,
        List.reverse_append, List.foldl_append, ← blockStep_eq_seq_rev A r n (hp n hnn)]

lemma fwdPhase_eq_blocksFwd (A : SparseMatrix) (r x : Vec) (hn : A.n = A.m)
    (hoff : A.offsets 0 = 0) (hnb : 1 ≤ A.nblocks) :
    fwdPhase A r x = blocksFwd A r A.nblocks x := by
  unfold fwdPhase fwdUpTo blocksFwd
  have hint : kernel_symgs_interior A (A.sizes 0) r x
      = kernel_symgs_sweep A (A.sizes 0) (A.offsets 0) r x := by
    funext j
    unfold kernel_symgs_interior kernel_symgs_sweep
    rw [hoff, hn]
    simp [Nat.zero_le]
  have hrange : List.range A.nblocks = 0 :: List.range' 1 (A.nblocks - 1) := by
    rw [List.range_eq_range']
    rcases Nat.exists_eq_add_of_le hnb with ⟨k, hk⟩
    rw [hk, Nat.add_comm 1 k]
    rfl
  rw [hint, hrange]
  rfl

lemma blockStep_idem (A : SparseMatrix) (r : Vec) (b : ℕ) (hp : properBlock A b) (y : Vec) :
    kernel_symgs_sweep A (A.sizes b) (A.offsets b) r
        (kernel_symgs_sweep A (A.sizes b) (A.offsets b) r y)
      = kernel_symgs_sweep A (A.sizes b) (A.offsets b) r y := by
  funext j
  unfold kernel_symgs_sweep
  by_cases h : A.offsets b ≤ j ∧ j < A.offsets b + A.sizes b
  · rw [if_pos h, if_pos h, sweepRow_eq_gsRow, sweepRow_eq_gsRow]
    apply gsRowValue_congr
    intro p hpw h0 hnn hne
    have hcol : ¬ inBlock A b (A.ell_col_ind p j).toNat := hp j h.2 h.1 p hpw h0 hnn hne
    exact if_neg hcol
  · rw [if_neg h, if_neg h]

lemma computeSYMGS_eq_naive (A : SparseMatrix) (r x : Vec) (hn : A.n = A.m)
    (hv : validBlocks A) (hp : properBlocks A) (hnb : 1 ≤ A.nblocks)
    (hub : A.ublocks = A.nblocks - 1 ∨ (2 ≤ A.nblocks ∧ A.ublocks = A.nblocks - 2)) :
    ComputeSYMGS A r x = naiveSYMGS A r x := by
  have hfwd : fwdPhase A r x = blocksFwd A r A.nblocks x :=
    fwdPhase_eq_blocksFwd A r x hn hv.1 hnb
  have hcs : ComputeSYMGS A r x = blocksBwd A r (A.ublocks + 1) (blocksFwd A r A.nblocks x) := by
    show bwdPhase A r (fwdPhase A r x) = _
    rw [hfwd]; rfl
  have hmain : blocksBwd A r A.nblocks (blocksFwd A r A.nblocks x) = naiveSYMGS A r x := by
    unfold naiveSYMGS
    rw [blocksFwd_eq_seq A r x hv hp A.nblocks le_rfl,
      blocksBwd_eq_seq A r hv hp A.nblocks le_rfl, hv.2.2, List.range_eq_range']
  rcases hub with h1 | ⟨h2, h2e⟩
  · rw [hcs, h1, show A.nblocks - 1 + 1 = A.nblocks by omega, hmain]
  · obtain ⟨q, hq⟩ : ∃ q, A.nblocks = q + 2 := ⟨A.nblocks - 2, by omega⟩
    rw [hcs, h2e, hq, show q + 2 - 2 + 1 = q + 1 by omega]
    have hpq : properBlock A (q + 1) := hp (q + 1) (by omega)
    have hstep : blocksFwd A r (q + 2) x
        = kernel_symgs_sweep A (A.sizes (q + 1)) (A.offsets (q + 1)) r
            (blocksFwd A r (q + 1) x) := blocksFwd_succ A r x (q + 1)
    have hidem : kernel_symgs_sweep A (A.sizes (q + 1)) (A.offsets (q + 1)) r
        (blocksFwd A r (q + 2) x) = blocksFwd A r (q + 2) x := by
      rw [hstep, blockStep_idem A r (q + 1) hpq]
    have hb : blocksBwd A r (q + 2) (blocksFwd A r (q + 2) x)
        = blocksBwd A r (q + 1) (blocksFwd A r (q + 2) x) := by
      rw [blocksBwd_succ, hidem]
    rw [← hb, ← hq, hmain]

/-! ### The zero-guess fast path versus the general solver -/

lemma sum_split_diag (w d : ℕ) (hdw : d < w) (f : ℕ → ℚ) :
    Finset.sum (Finset.range w) f
      = Finset.sum (Finset.range d) f + f d + Finset.sum (Finset.Ico (d + 1) w) f := by
  rw [Finset.range_eq_Ico, ← Finset.sum_Ico_consecutive f (Nat.zero_le d) (Nat.le_of_lt hdw),
    Finset.sum_eq_sum_Ico_succ_bot hdw, ← Finset.range_eq_Ico]
  ring

lemma fwdUpTo_succ (A : SparseMatrix) (r x : Vec) (i : ℕ) :
    fwdUpTo A r x (i + 1)
      = kernel_symgs_sweep A (A.sizes (i + 1)) (A.offsets (i + 1)) r (fwdUpTo A r x i) := by
  unfold fwdUpTo
  rw [List.range'_concat, List.foldl_append]
  have h1 : 1 + 1 * i = i + 1 := by omega
  rw [h1]
  rfl

lemma zgFwdUpTo_succ (A : SparseMatrix) (r x : Vec) (i : ℕ) :
    zgFwdUpTo A r x (i + 1)
      = kernel_forward_sweep_0 A (A.sizes (i + 1)) (A.offsets (i + 1)) r (zgFwdUpTo A r x i) := by
  unfold zgFwdUpTo
  rw [List.range'_concat, List.foldl_append]
  have h1 : 1 + 1 * i = i + 1 := by omega
  rw [h1]
  rfl

lemma sweepRow_of_zero (A : SparseMatrix) (bound : ℕ) (x y : Vec) (row : ℕ)
    (h : ∀ p < A.ell_width, y (A.ell_col_ind p row).toNat = 0) :
    sweepRow A bound x y row = x row * A.inv_diag row := by
  rw [sweepRow_eq]
  have hzero : Finset.sum (Finset.range A.ell_width) (sweepTerm A bound y row) = 0 := by
    apply Finset.sum_eq_zero
    intro p hp
    rw [Finset.mem_range] at hp
    unfold sweepTerm
    by_cases hc : 0 ≤ A.ell_col_ind p row ∧ A.ell_col_ind p row < (bound : ℤ) ∧
        A.ell_col_ind p row ≠ (row : ℤ)
    · rw [if_pos hc, h p hp, mul_zero]
    · rw [if_neg hc]
  rw [hzero, sub_zero]

lemma fwdRow_eq_zgRow (A : SparseMatrix) (r y : Vec) (b row : ℕ)
    (hrow : inBlock A b row) (hrowm : row < A.m)
    (hp : properBlock A b) (htri : triangularELL A) (hinv : invDiagOk A)
    (hmn : A.m ≤ A.n)
    (hz : ∀ c, A.offsets b ≤ c → y c = 0) :
    sweepRow A A.n r y row = forwardZeroRow A (A.offsets b) r y row := by
  obtain ⟨hdw, hdcol, hlow, hupp⟩ := htri row hrowm
  rw [sweepRow_eq, forwardZeroRow_eq, hinv row hrowm, div_eq_mul_inv]
  have hdiag0 : sweepTerm A A.n y row (A.diag_idx row) = 0 := by
    unfold sweepTerm
    rw [if_neg]
    intro hc
    exact hc.2.2 hdcol
  have hup0 : ∀ p ∈ Finset.Ico (A.diag_idx row + 1) A.ell_width,
      sweepTerm A A.n y row p = 0 := by
    intro p hp'
    rw [Finset.mem_Ico] at hp'
    unfold sweepTerm
    rcases hupp p (by omega) hp'.2 with hneg | hbig
    · rw [if_neg]
      intro hc
      omega
    · by_cases hc : 0 ≤ A.ell_col_ind p row ∧ A.ell_col_ind p row < ((A.n : ℕ) : ℤ) ∧
          A.ell_col_ind p row ≠ (row : ℤ)
      · rw [if_pos hc]
        have hyz : y (A.ell_col_ind p row).toNat = 0 := by
          apply hz
          have := hrow.1
          omega
        rw [hyz, mul_zero]
      · rw [if_neg hc]
  have hlow_eq : ∀ p ∈ Finset.range (A.diag_idx row),
      sweepTerm A A.n y row p = fwdZeroTerm A (A.offsets b) y row p := by
    intro p hp'
    rw [Finset.mem_range] at hp'
    have hcl : A.ell_col_ind p row < (row : ℤ) := hlow p hp'
    unfold sweepTerm fwdZeroTerm
    by_cases h0 : 0 ≤ A.ell_col_ind p row
    · have hcn : A.ell_col_ind p row < (A.n : ℤ) := by
        have h1 : (row : ℤ) < (A.m : ℤ) := by exact_mod_cast hrowm
        have h2 : (A.m : ℤ) ≤ (A.n : ℤ) := by exact_mod_cast hmn
        omega
      have hne : A.ell_col_ind p row ≠ (row : ℤ) := by omega
      have hoffb : A.ell_col_ind p row < (A.offsets b : ℤ) := by
        have hnb2 := hp row hrow.2 hrow.1 p (by omega) h0 hcn hne
        unfold inBlock at hnb2
        have := hrow.2
        omega
      rw [if_pos ⟨h0, hcn, hne⟩, if_pos ⟨h0, hoffb⟩]
    · rw [if_neg (fun hc => h0 hc.1), if_neg (fun hc => h0 hc.1)]
  rw [sum_split_diag A.ell_width (A.diag_idx row) hdw, hdiag0, Finset.sum_eq_zero hup0,
    Finset.sum_congr rfl hlow_eq]
  ring

lemma fwd_zg_equal (A : SparseMatrix) (r x0 : Vec) (hx0 : ∀ j, x0 j = 0)
    (hv : validBlocks A) (hp : properBlocks A) (htri : triangularELL A)
    (hinv : invDiagOk A) (hmn : A.m ≤ A.n) :
    ∀ i < A.nblocks,
      (∀ j, fwdUpTo A r x0 i j = zgFwdUpTo A r x0 i j) ∧
      (∀ c, A.offsets (i + 1) ≤ c → fwdUpTo A r x0 i c = 0) := by
  intro i
  induction i with
  | zero =>
      intro h0
      constructor
      · intro j
        show kernel_symgs_interior A (A.sizes 0) r x0 j
          = kernel_pointwise_mult A (A.sizes 0) r x0 j
        unfold kernel_symgs_interior kernel_pointwise_mult
        by_cases hj : j < A.sizes 0
        · rw [if_pos hj, if_pos hj, sweepRow_of_zero A A.m r x0 j (fun p _ => hx0 _)]
        · rw [if_neg hj, if_neg hj]
      · intro c hc
        show kernel_symgs_interior A (A.sizes 0) r x0 c = 0
        unfold kernel_symgs_interior
        have h1 := hv.2.1 0 h0
        have h2 := hv.1
        have hcs : ¬ c < A.sizes 0 := by omega
        rw [if_neg hcs]
        exact hx0 c
  | succ n ih =>
      intro hn1
      have hnn : n < A.nblocks := by omega
      obtain ⟨ihEq, ihZ⟩ := ih hnn
      have hfun : fwdUpTo A r x0 n = zgFwdUpTo A r x0 n := funext ihEq
      have hrowm : ∀ j, A.offsets (n + 1) ≤ j → j < A.offsets (n + 1) + A.sizes (n + 1) →
          j < A.m := by
        intro j hj1 hj2
        have ho1 := offsets_mono A hv A.nblocks le_rfl (n + 1 + 1) (by omega)
        have ho2 := hv.2.1 (n + 1) hn1
        have ho3 := hv.2.2
        omega
      have hblock : ∀ j,
          kernel_symgs_sweep A (A.sizes (n + 1)) (A.offsets (n + 1)) r (fwdUpTo A r x0 n) j
            = kernel_forward_sweep_0 A (A.sizes (n + 1)) (A.offsets (n + 1)) r
                (fwdUpTo A r x0 n) j := by
        intro j
        unfold kernel_symgs_sweep kernel_forward_sweep_0
        by_cases hj : A.offsets (n + 1) ≤ j ∧ j < A.offsets (n + 1) + A.sizes (n + 1)
        · rw [if_pos hj, if_pos hj]
          exact fwdRow_eq_zgRow A r (fwdUpTo A r x0 n) (n + 1) j hj
            (hrowm j hj.1 hj.2) (hp (n + 1) hn1) htri hinv hmn ihZ
        · rw [if_neg hj, if_neg hj]
      constructor
      · intro j
        rw [fwdUpTo_succ, zgFwdUpTo_succ, ← hfun]
        exact hblock j
      · intro c hc
        rw [fwdUpTo_succ]
        unfold kernel_symgs_sweep
        have h1 := hv.2.1 (n + 1) hn1
        have hcs : ¬ (A.offsets (n + 1) ≤ c ∧ c < A.offsets (n + 1) + A.sizes (n + 1)) := by
          omega
        rw [if_neg hcs]
        exact ihZ c (by omega)

lemma zgFwdUpTo_frozen (A : SparseMatrix) (r x : Vec) (hv : validBlocks A) (b row : ℕ)
    (hrow : row < A.offsets (b + 1)) :
    ∀ j, b ≤ j → j + 1 ≤ A.nblocks → zgFwdUpTo A r x j row = zgFwdUpTo A r x b row := by
  intro j
  induction j with
  | zero => intro hb _; rw [Nat.le_zero.mp hb]
  | succ n ih =>
      intro hb hn1
      rcases Nat.eq_or_lt_of_le hb with he | hlt
      · rw [← he]
      · rw [zgFwdUpTo_succ]
        unfold kernel_forward_sweep_0
        have hmono := offsets_mono A hv (n + 1) (by omega) (b + 1) (by omega)
        have hno : ¬ (A.offsets (n + 1) ≤ row ∧ row < A.offsets (n + 1) + A.sizes (n + 1)) := by
          omega
        rw [if_neg hno]
        exact ih (by omega) (by omega)

lemma fwdZeroTerm_sum_congr (A : SparseMatrix) (offv : ℕ) {y y' : Vec} (row d : ℕ)
    (h : ∀ c : ℤ, 0 ≤ c → c < (offv : ℤ) → y c.toNat = y' c.toNat) :
    Finset.sum (Finset.range d) (fwdZeroTerm A offv y row)
      = Finset.sum (Finset.range d) (fwdZeroTerm A offv y' row) := by
  apply Finset.sum_congr rfl
  intro p _
  unfold fwdZeroTerm
  by_cases hc : 0 ≤ A.ell_col_ind p row ∧ A.ell_col_ind p row < (offv : ℤ)
  · rw [if_pos hc, if_pos hc, h _ hc.1 hc.2]
  · rw [if_neg hc, if_neg hc]

lemma zgFwd_fixed (A : SparseMatrix) (r x0 : Vec)
    (hv : validBlocks A) (htri : triangularELL A) (hinv : invDiagOk A) (hd0 : diagNZ A)
    (hnb : 1 ≤ A.nblocks) :
    ∀ b < A.nblocks, ∀ row, inBlock A b row →
      zgFwd A r x0 row * A.ell_val (A.diag_idx row) row
        = r row - Finset.sum (Finset.range (A.diag_idx row))
            (fwdZeroTerm A (A.offsets b) (zgFwd A r x0) row) := by
  intro b hb row hrow
  have hob := hv.2.1 b hb
  have hrow1 : row < A.offsets (b + 1) := by
    have := hrow.2
    omega
  have hrowm : row < A.m := by
    have h1 := offsets_mono A hv A.nblocks le_rfl (b + 1) (by omega)
    have h2 := hv.2.2
    omega
  have hfrozen : zgFwd A r x0 row = zgFwdUpTo A r x0 b row := by
    show zgFwdUpTo A r x0 (A.nblocks - 1) row = _
    exact zgFwdUpTo_frozen A r x0 hv b row hrow1 (A.nblocks - 1) (by omega) (by omega)
  rcases Nat.eq_zero_or_pos b with hb0 | hbpos
  · subst hb0
    have hoff0 := hv.1
    have hrow0 : row < A.sizes 0 := by omega
    have hval : zgFwd A r x0 row = r row * A.inv_diag row := by
      rw [hfrozen]
      show kernel_pointwise_mult A (A.sizes 0) r x0 row = _
      unfold kernel_pointwise_mult
      rw [if_pos hrow0]
    have hsum0 : Finset.sum (Finset.range (A.diag_idx row))
        (fwdZeroTerm A (A.offsets 0) (zgFwd A r x0) row) = 0 := by
      apply Finset.sum_eq_zero
      intro p _
      unfold fwdZeroTerm
      rw [if_neg]
      intro hc
      rw [hoff0] at hc
      omega
    rw [hval, hsum0, hinv row hrowm, mul_assoc,
      inv_mul_cancel₀ (hd0 row hrowm), mul_one, sub_zero]
  · obtain ⟨c, hc⟩ : ∃ c, b = c + 1 := ⟨b - 1, by omega⟩
    subst hc
    have hval : zgFwd A r x0 row
        = forwardZeroRow A (A.offsets (c + 1)) r (zgFwdUpTo A r x0 c) row := by
      rw [hfrozen, zgFwdUpTo_succ]
      unfold kernel_forward_sweep_0
      rw [if_pos (show A.offsets (c + 1) ≤ row ∧ row < A.offsets (c + 1) + A.sizes (c + 1)
        from hrow)]
    have hcongr : Finset.sum (Finset.range (A.diag_idx row))
        (fwdZeroTerm A (A.offsets (c + 1)) (zgFwdUpTo A r x0 c) row)
        = Finset.sum (Finset.range (A.diag_idx row))
            (fwdZeroTerm A (A.offsets (c + 1)) (zgFwd A r x0) row) := by
      apply fwdZeroTerm_sum_congr
      intro col h0 hcol
      have hcoln : col.toNat < A.offsets (c + 1) := by omega
      exact (zgFwdUpTo_frozen A r x0 hv c col.toNat hcoln (A.nblocks - 1)
        (by omega) (by omega)).symm
    rw [hval, forwardZeroRow_eq, hcongr, div_mul_cancel₀ _ (hd0 row hrowm)]

lemma sweepTerm_low_eq (A : SparseMatrix) (y : Vec) (b row : ℕ)
    (hrow : inBlock A b row) (hrowm : row < A.m) (hp : properBlock A b)
    (hmn : A.m ≤ A.n) (hdw : A.diag_idx row < A.ell_width)
    (hlow : ∀ p < A.diag_idx row, A.ell_col_ind p row < (row : ℤ)) :
    ∀ p ∈ Finset.range (A.diag_idx row),
      sweepTerm A A.n y row p = fwdZeroTerm A (A.offsets b) y row p := by
  intro p hp'
  rw [Finset.mem_range] at hp'
  have hcl : A.ell_col_ind p row < (row : ℤ) := hlow p hp'
  unfold sweepTerm fwdZeroTerm
  by_cases h0 : 0 ≤ A.ell_col_ind p row
  · have hcn : A.ell_col_ind p row < (A.n : ℤ) := by
      have h1 : (row : ℤ) < (A.m : ℤ) := by exact_mod_cast hrowm
      have h2 : (A.m : ℤ) ≤ (A.n : ℤ) := by exact_mod_cast hmn
      omega
    have hne : A.ell_col_ind p row ≠ (row : ℤ) := by omega
    have hoffb : A.ell_col_ind p row < (A.offsets b : ℤ) := by
      have hnb2 := hp row hrow.2 hrow.1 p (by omega) h0 hcn hne
      unfold inBlock at hnb2
      have := hrow.2
      omega
    rw [if_pos ⟨h0, hcn, hne⟩, if_pos ⟨h0, hoffb⟩]
  · rw [if_neg (fun hc => h0 hc.1), if_neg (fun hc => h0 hc.1)]

lemma bwdRow_eq_zgRow (A : SparseMatrix) (r x0 : Vec) (b row : ℕ) (y : Vec)
    (hv : validBlocks A) (hp : properBlock A b) (htri : triangularELL A)
    (hinv : invDiagOk A) (hd0 : diagNZ A) (hmn : A.m ≤ A.n) (hnb : 1 ≤ A.nblocks)
    (hb : b < A.nblocks) (hrow : inBlock A b row)
    (hyf : ∀ c < A.offsets (b + 1), y c = zgFwd A r x0 c)
    (hgz : ∀ c, A.m ≤ c → y c = 0) :
    sweepRow A A.n r y row = backwardZeroRow A (A.offsets b) y row := by
  have hob := hv.2.1 b hb
  have hrowm : row < A.m := by
    have h1 := offsets_mono A hv A.nblocks le_rfl (b + 1) (by omega)
    have h2 := hv.2.2
    have := hrow.1
    have := hrow.2
    omega
  obtain ⟨hdw, hdcol, hlow, hupp⟩ := htri row hrowm
  rw [sweepRow_eq, backwardZeroRow_eq A _ y row hdw, hinv row hrowm, div_eq_mul_inv]
  have hyrow : y row = zgFwd A r x0 row := hyf row (by have := hrow.2; omega)
  have hfix := zgFwd_fixed A r x0 hv htri hinv hd0 hnb b hb row hrow
  have hyd : y row * A.ell_val (A.diag_idx row) row
      = r row - Finset.sum (Finset.range (A.diag_idx row))
          (fwdZeroTerm A (A.offsets b) y row) := by
    rw [hyrow, hfix]
    congr 1
    apply fwdZeroTerm_sum_congr
    intro col h0 hcol
    have hmono := offsets_mono A hv A.nblocks le_rfl (b + 1) (by omega)
    exact (hyf col.toNat (by omega)).symm
  have hdiag0 : sweepTerm A A.n y row (A.diag_idx row) = 0 := by
    unfold sweepTerm
    rw [if_neg]
    intro hc
    exact hc.2.2 hdcol
  have hlow_eq := sweepTerm_low_eq A y b row hrow hrowm hp hmn hdw hlow
  have hup_eq : ∀ p ∈ Finset.Ico (A.diag_idx row + 1) A.ell_width,
      sweepTerm A A.n y row p = bwdZeroTerm A (A.offsets b) y row p := by
    intro p hp'
    rw [Finset.mem_Ico] at hp'
    unfold sweepTerm bwdZeroTerm
    have hoffrow : A.offsets b ≤ row := hrow.1
    rcases hupp p (by omega) hp'.2 with hneg | hbig
    · rw [if_neg (fun hc => by omega), if_neg (fun hc => by omega)]
    · by_cases hcm : A.ell_col_ind p row < (A.m : ℤ)
      · have hcn : A.ell_col_ind p row < (A.n : ℤ) := by
          have h2 : (A.m : ℤ) ≤ (A.n : ℤ) := by exact_mod_cast hmn
          omega
        rw [if_pos ⟨by omega, hcn, by omega⟩, if_pos ⟨by omega, hcm⟩]
      · by_cases hcn : A.ell_col_ind p row < (A.n : ℤ)
        · rw [if_pos ⟨by omega, hcn, by omega⟩, if_neg (fun hc => hcm hc.2),
            hgz _ (by omega), mul_zero]
        · rw [if_neg (fun hc => hcn hc.2.1), if_neg (fun hc => hcm hc.2)]
  rw [sum_split_diag A.ell_width (A.diag_idx row) hdw, hdiag0,
    Finset.sum_congr rfl hlow_eq, Finset.sum_congr rfl hup_eq, hyd]
  ring

lemma bwd_zg_equal (A : SparseMatrix) (r x0 : Vec)
    (hv : validBlocks A) (hp : properBlocks A) (htri : triangularELL A)
    (hinv : invDiagOk A) (hd0 : diagNZ A) (hmn : A.m ≤ A.n) (hnb : 1 ≤ A.nblocks) :
    ∀ i < A.nblocks, ∀ y : Vec,
      (∀ c < A.offsets (i + 1), y c = zgFwd A r x0 c) →
      (∀ c, A.m ≤ c → y c = 0) →
      blocksBwd A r (i + 1) y = zgBwdFrom A (i + 1) y := by
  intro i
  induction i with
  | zero =>
      intro h0 y hyf hgz
      have hstep : ∀ j, kernel_symgs_sweep A (A.sizes 0) (A.offsets 0) r y j
          = kernel_backward_sweep_0 A (A.sizes 0) (A.offsets 0) y j := by
        intro j
        unfold kernel_symgs_sweep kernel_backward_sweep_0
        by_cases hj : A.offsets 0 ≤ j ∧ j < A.offsets 0 + A.sizes 0
        · rw [if_pos hj, if_pos hj]
          exact bwdRow_eq_zgRow A r x0 0 j y hv (hp 0 h0) htri hinv hd0 hmn hnb h0 hj
            hyf hgz
        · rw [if_neg hj, if_neg hj]
      rw [blocksBwd_succ, zgBwdFrom_succ]
      show kernel_symgs_sweep A (A.sizes 0) (A.offsets 0) r y
        = kernel_backward_sweep_0 A (A.sizes 0) (A.offsets 0) y
      exact funext hstep
  | succ n ih =>
      intro hn1 y hyf hgz
      have hnn : n < A.nblocks := by omega
      have hro := hv.2.1 (n + 1) hn1
      have hstep : ∀ j, kernel_symgs_sweep A (A.sizes (n + 1)) (A.offsets (n + 1)) r y j
          = kernel_backward_sweep_0 A (A.sizes (n + 1)) (A.offsets (n + 1)) y j := by
        intro j
        unfold kernel_symgs_sweep kernel_backward_sweep_0
        by_cases hj : A.offsets (n + 1) ≤ j ∧ j < A.offsets (n + 1) + A.sizes (n + 1)
        · rw [if_pos hj, if_pos hj]
          exact bwdRow_eq_zgRow A r x0 (n + 1) j y hv (hp (n + 1) hn1) htri hinv hd0
            hmn hnb hn1 hj hyf hgz
        · rw [if_neg hj, if_neg hj]
      rw [blocksBwd_succ, zgBwdFrom_succ,
        show kernel_backward_sweep_0 A (A.sizes (n + 1)) (A.offsets (n + 1)) y
          = kernel_symgs_sweep A (A.sizes (n + 1)) (A.offsets (n + 1)) r y
          from (funext hstep).symm]
      apply ih hnn
      · intro c hc
        show (if A.offsets (n + 1) ≤ c ∧ c < A.offsets (n + 1) + A.sizes (n + 1) then _ else y c)
          = _
        rw [if_neg (by omega)]
        exact hyf c (by omega)
      · intro c hc
        have hm2 : A.offsets (n + 1 + 1) ≤ A.m := by
          have h1 := offsets_mono A hv A.nblocks le_rfl (n + 1 + 1) (by omega)
          have h2 := hv.2.2
          omega
        show (if A.offsets (n + 1) ≤ c ∧ c < A.offsets (n + 1) + A.sizes (n + 1) then _ else y c)
          = 0
        rw [if_neg (by omega)]
        exact hgz c hc

lemma computeSYMGS_eq_zeroGuess (A : SparseMatrix) (r x0 : Vec) (hx0 : ∀ j, x0 j = 0)
    (hv : validBlocks A) (hp : properBlocks A) (htri : triangularELL A)
    (hinv : invDiagOk A) (hd0 : diagNZ A) (hmn : A.m ≤ A.n)
    (hnb : 1 ≤ A.nblocks) (hub : A.ublocks < A.nblocks) :
    ComputeSYMGS A r x0 = ComputeSYMGSZeroGuess A r x0 := by
  obtain ⟨hfe, hfz⟩ := fwd_zg_equal A r x0 hx0 hv hp htri hinv hmn (A.nblocks - 1) (by omega)
  have hfwd : fwdPhase A r x0 = zgFwd A r x0 := funext hfe
  have hzf0 : ∀ c, A.m ≤ c → zgFwd A r x0 c = 0 := by
    intro c hc
    have h1 : fwdUpTo A r x0 (A.nblocks - 1) c = 0 := by
      apply hfz
      rw [show A.nblocks - 1 + 1 = A.nblocks by omega, hv.2.2]
      exact hc
    show zgFwdUpTo A r x0 (A.nblocks - 1) c = 0
    rw [← hfe c]
    exact h1
  have hcs : ComputeSYMGS A r x0 = blocksBwd A r (A.ublocks + 1) (zgFwd A r x0) := by
    show bwdPhase A r (fwdPhase A r x0) = _
    rw [hfwd]; rfl
  have hzg : ComputeSYMGSZeroGuess A r x0 = zgBwdFrom A (A.ublocks + 1) (zgFwd A r x0) := rfl
  rw [hcs, hzg]
  exact bwd_zg_equal A r x0 hv hp htri hinv hd0 hmn hnb A.ublocks hub (zgFwd A r x0)
    (fun c _ => rfl) hzf0

/-! ### Basic facts about the coloring round loop -/

lemma jplIter_nblocks (G : Graph) (rng : ℕ → ℕ) : ∀ k, (jplIter G rng k).nblocks = 2 * k := by
  intro k
  induction k with
  | zero => rfl
  | succ n ih =>
      show (jplRound G rng (jplIter G rng n)).nblocks = 2 * (n + 1)
      unfold jplRound
      simp only []
      omega

lemma jplIter_t (G : Graph) (rng : ℕ → ℕ) : ∀ k, (jplIter G rng k).t = 2 * k := by
  intro k
  induction k with
  | zero => rfl
  | succ n ih =>
      show (jplRound G rng (jplIter G rng n)).t = 2 * (n + 1)
      unfold jplRound
      simp only []
      omega

lemma cand1_nonneg (rng : ℕ → ℕ) (s : ColState) : 0 ≤ cand1 rng s := by
  unfold cand1
  by_cases h : s.nblocks < 8
  · rw [if_pos h]; omega
  · rw [if_neg h]; omega

lemma cand2_nonneg (rng : ℕ → ℕ) (s : ColState) : 0 ≤ cand2 rng s := by
  unfold cand2
  by_cases h : s.nblocks < 8
  · rw [if_pos h]; omega
  · rw [if_neg h]; omega

lemma roundCand1_nonneg (G : Graph) (rng : ℕ → ℕ) (k : ℕ) : 0 ≤ roundCand1 G rng k :=
  cand1_nonneg rng _

lemma roundCand2_nonneg (G : Graph) (rng : ℕ → ℕ) (k : ℕ) : 0 ≤ roundCand2 G rng k :=
  cand2_nonneg rng _

lemma jplIter_colors_succ (G : Graph) (rng : ℕ → ℕ) (k : ℕ) :
    (jplIter G rng (k + 1)).colors
      = kernel_jpl G (roundCand1 G rng k) (roundCand2 G rng k) (jplIter G rng k).colors := rfl

lemma kernel_jpl_keep (G : Graph) (c1 c2 : ℤ) (colors : ℕ → ℤ) (row : ℕ)
    (h : ¬ colors row = -1) :
    kernel_jpl G c1 c2 colors row = colors row := by
  unfold kernel_jpl
  rw [if_neg (fun hc => h hc.2)]

lemma jplRelevant_iff (G : Graph) (colors : ℕ → ℤ) (c1 c2 : ℤ) (row p : ℕ) :
    jplRelevant G colors c1 c2 row p = true ↔
      (0 ≤ G.ind row p ∧ G.ind row p < (G.m : ℤ) ∧ G.ind row p ≠ (row : ℤ) ∧
        (colors (G.ind row p).toNat = -1 ∨ colors (G.ind row p).toNat = c1 ∨
          colors (G.ind row p).toNat = c2)) := by
  unfold jplRelevant
  exact decide_eq_true_iff

lemma rowIsMaxB_iff (G : Graph) (colors : ℕ → ℤ) (c1 c2 : ℤ) (row : ℕ) :
    rowIsMaxB G colors c1 c2 row = true ↔
      ∀ p < G.width, jplRelevant G colors c1 c2 row p = true →
        G.hash (G.ind row p).toNat < G.hash row := by
  unfold rowIsMaxB
  rw [List.all_eq_true]
  constructor
  · intro h p hp hrel
    have h2 := h p (List.mem_range.mpr hp)
    rw [hrel] at h2
    simpa using h2
  · intro h p hp
    rw [List.mem_range] at hp
    cases hrel : jplRelevant G colors c1 c2 row p
    · simp
    · simp [h p hp hrel]

lemma rowIsMinB_iff (G : Graph) (colors : ℕ → ℤ) (c1 c2 : ℤ) (row : ℕ) :
    rowIsMinB G colors c1 c2 row = true ↔
      ∀ p < G.width, jplRelevant G colors c1 c2 row p = true →
        G.hash row < G.hash (G.ind row p).toNat := by
  unfold rowIsMinB
  rw [List.all_eq_true]
  constructor
  · intro h p hp hrel
    have h2 := h p (List.mem_range.mpr hp)
    rw [hrel] at h2
    simpa using h2
  · intro h p hp
    rw [List.mem_range] at hp
    cases hrel : jplRelevant G colors c1 c2 row p
    · simp
    · simp [h p hp hrel]

lemma kernel_jpl_result (G : Graph) (c1 c2 : ℤ) (colors : ℕ → ℤ) (row : ℕ) :
    kernel_jpl G c1 c2 colors row = colors row ∨
      (row < G.m ∧ colors row = -1 ∧
        ((kernel_jpl G c1 c2 colors row = c1 ∧ rowIsMaxB G colors c1 c2 row = true) ∨
         (kernel_jpl G c1 c2 colors row = c2 ∧ rowIsMaxB G colors c1 c2 row = false ∧
           rowIsMinB G colors c1 c2 row = true) ∨
         kernel_jpl G c1 c2 colors row = -1)) := by
  unfold kernel_jpl
  by_cases h : row < G.m ∧ colors row = -1
  · rw [if_pos h]
    cases hmax : rowIsMaxB G colors c1 c2 row
    · cases hmin : rowIsMinB G colors c1 c2 row
      · rw [if_neg (by simp [hmax]), if_neg (by simp [hmin])]
        exact Or.inr ⟨h.1, h.2, Or.inr (Or.inr rfl)⟩
      · rw [if_neg (by simp [hmax]), if_pos (by simp [hmin])]
        exact Or.inr ⟨h.1, h.2, Or.inr (Or.inl ⟨rfl, rfl, rfl⟩)⟩
    · rw [if_pos (by simp [hmax])]
      exact Or.inr ⟨h.1, h.2, Or.inl ⟨rfl, rfl⟩⟩
  · rw [if_neg h]
    exact Or.inl rfl

lemma jplIter_hist (G : Graph) (rng : ℕ → ℕ) : ∀ k row,
    (jplIter G rng k).colors row = -1 ∨
      ∃ j < k, (jplIter G rng k).colors row = roundCand1 G rng j ∨
               (jplIter G rng k).colors row = roundCand2 G rng j := by
  intro k
  induction k with
  | zero => intro row; exact Or.inl rfl
  | succ n ih =>
      intro row
      rw [jplIter_colors_succ]
      rcases kernel_jpl_result G (roundCand1 G rng n) (roundCand2 G rng n)
          (jplIter G rng n).colors row with heq | ⟨_, _, hcase⟩
      · rw [heq]
        rcases ih row with h | ⟨j, hj, hc⟩
        · exact Or.inl h
        · exact Or.inr ⟨j, by omega, hc⟩
      · rcases hcase with ⟨hc1, _⟩ | ⟨hc2, _, _⟩ | hc3
        · exact Or.inr ⟨n, by omega, Or.inl hc1⟩
        · exact Or.inr ⟨n, by omega, Or.inr hc2⟩
        · exact Or.inl hc3

lemma countColor_eq_card (m : ℕ) (colors : ℕ → ℤ) (c : ℤ) :
    countColor m colors c = ((Finset.range m).filter (fun i => colors i = c)).card := by
  induction m with
  | zero => rfl
  | succ n ih =>
      unfold countColor at ih ⊢
      rw [List.range_succ, List.filter_append, List.length_append, ih,
        Finset.range_succ, Finset.filter_insert]
      by_cases h : colors n = c
      · rw [if_pos h, Finset.card_insert_of_not_mem (by simp)]
        simp [h]
      · rw [if_neg h]
        simp [h]

lemma jplRound_colors (G : Graph) (rng : ℕ → ℕ) (s : ColState) :
    (jplRound G rng s).colors = kernel_jpl G (cand1 rng s) (cand2 rng s) s.colors := rfl

lemma jplRound_nblocks (G : Graph) (rng : ℕ → ℕ) (s : ColState) :
    (jplRound G rng s).nblocks = s.nblocks + 2 := rfl

lemma jplRound_colored (G : Graph) (rng : ℕ → ℕ) (s : ColState) :
    (jplRound G rng s).colored
      = s.colored + countColor G.m (jplRound G rng s).colors (cand1 rng s)
          + countColor G.m (jplRound G rng s).colors (cand2 rng s) := rfl

lemma jplRound_sizes (G : Graph) (rng : ℕ → ℕ) (s : ColState) (b : ℕ) :
    (jplRound G rng s).sizes b
      = if b = s.nblocks then countColor G.m (jplRound G rng s).colors (cand1 rng s)
        else if b = s.nblocks + 1 then countColor G.m (jplRound G rng s).colors (cand2 rng s)
        else s.sizes b := rfl

lemma jplIter_sizes_sum (G : Graph) (rng : ℕ → ℕ) : ∀ k,
    Finset.sum (Finset.range (jplIter G rng k).nblocks) (jplIter G rng k).sizes
      = (jplIter G rng k).colored := by
  intro k
  induction k with
  | zero => rfl
  | succ n ih =>
      show Finset.sum (Finset.range (jplRound G rng (jplIter G rng n)).nblocks)
          (jplRound G rng (jplIter G rng n)).sizes = (jplRound G rng (jplIter G rng n)).colored
      rw [jplRound_nblocks, jplRound_colored,
        show (jplIter G rng n).nblocks + 2 = ((jplIter G rng n).nblocks + 1) + 1 from rfl,
        Finset.sum_range_succ, Finset.sum_range_succ]
      have h1 : (jplRound G rng (jplIter G rng n)).sizes ((jplIter G rng n).nblocks)
          = countColor G.m (jplRound G rng (jplIter G rng n)).colors
              (cand1 rng (jplIter G rng n)) := by
        rw [jplRound_sizes, if_pos rfl]
      have h2 : (jplRound G rng (jplIter G rng n)).sizes ((jplIter G rng n).nblocks + 1)
          = countColor G.m (jplRound G rng (jplIter G rng n)).colors
              (cand2 rng (jplIter G rng n)) := by
        rw [jplRound_sizes, if_neg (by omega), if_pos rfl]
      have h3 : Finset.sum (Finset.range ((jplIter G rng n)).nblocks)
            (jplRound G rng (jplIter G rng n)).sizes
          = Finset.sum (Finset.range ((jplIter G rng n)).nblocks) (jplIter G rng n).sizes := by
        apply Finset.sum_congr rfl
        intro b hb
        rw [Finset.mem_range] at hb
        rw [jplRound_sizes, if_neg (by omega), if_neg (by omega)]
      rw [h1, h2, h3, ih]

lemma jplIter_fresh (G : Graph) (rng : ℕ → ℕ) (K : ℕ) (hdist : DistinctCands G rng K)
    (k : ℕ) (hk : k < K) :
    ∀ row, (jplIter G rng k).colors row = -1 ∨
      ((jplIter G rng k).colors row ≠ roundCand1 G rng k ∧
       (jplIter G rng k).colors row ≠ roundCand2 G rng k) := by
  intro row
  rcases jplIter_hist G rng k row with h | ⟨j, hj, hc⟩
  · exact Or.inl h
  · right
    have hd1 := hdist j (by omega) k hk
    have hd2 := hdist k hk j (by omega)
    rcases hc with h1 | h2
    · refine ⟨?_, ?_⟩
      · rw [h1]; intro he; exact absurd (hd1.1 he) (by omega)
      · rw [h1]; exact hd1.2.2
    · refine ⟨?_, ?_⟩
      · rw [h2]; intro he; exact hd2.2.2 he.symm
      · rw [h2]; intro he; exact absurd (hd1.2.1 he) (by omega)

lemma coloredSet_step (G : Graph) (rng : ℕ → ℕ) (k : ℕ)
    (hf : ∀ row, (jplIter G rng k).colors row = -1 ∨
      ((jplIter G rng k).colors row ≠ roundCand1 G rng k ∧
       (jplIter G rng k).colors row ≠ roundCand2 G rng k))
    (hne : roundCand1 G rng k ≠ roundCand2 G rng k) :
    (coloredSet G (jplIter G rng (k + 1)).colors).card
      = (coloredSet G (jplIter G rng k).colors).card
        + countColor G.m (jplIter G rng (k + 1)).colors (roundCand1 G rng k)
        + countColor G.m (jplIter G rng (k + 1)).colors (roundCand2 G rng k) := by
  have hc1 : roundCand1 G rng k = cand1 rng (jplIter G rng k) := rfl
  have hc2 : roundCand2 G rng k = cand2 rng (jplIter G rng k) := rfl
  have hcolors := jplIter_colors_succ G rng k
  set c1 := roundCand1 G rng k
  set c2 := roundCand2 G rng k
  set old := (jplIter G rng k).colors with hold
  set nw := (jplIter G rng (k + 1)).colors with hnw
  have hkeep : ∀ row, ¬ old row = -1 → nw row = old row := by
    intro row hrow
    rw [hcolors]
    exact kernel_jpl_keep G c1 c2 old row hrow
  have hres := fun row => kernel_jpl_result G c1 c2 old row
  rw [countColor_eq_card, countColor_eq_card]
  set S := coloredSet G old with hS
  set N1 := (Finset.range G.m).filter (fun i => nw i = c1) with hN1
  set N2 := (Finset.range G.m).filter (fun i => nw i = c2) with hN2
  have hc1ne : c1 ≠ -1 := by
    have := roundCand1_nonneg G rng k
    omega
  have hc2ne : c2 ≠ -1 := by
    have := roundCand2_nonneg G rng k
    omega
  have hunion : coloredSet G nw = S ∪ N1 ∪ N2 := by
    ext i
    simp only [coloredSet, hS, hN1, hN2, Finset.mem_union, Finset.mem_filter,
      Finset.mem_range]
    constructor
    · rintro ⟨him, hci⟩
      rcases hres i with hk1 | ⟨_, hunc, hcase⟩
      · left; left
        refine ⟨him, ?_⟩
        rw [← hcolors] at hk1
        rw [← hk1]
        exact hci
      · rcases hcase with ⟨he, _⟩ | ⟨he, _, _⟩ | he
        · left; right
          exact ⟨him, by rw [hcolors]; exact he⟩
        · right
          exact ⟨him, by rw [hcolors]; exact he⟩
        · exfalso
          rw [hcolors] at hci
          exact hci he
    · rintro ((⟨him, hci⟩ | ⟨him, hci⟩) | ⟨him, hci⟩)
      · exact ⟨him, by rw [hkeep i hci]; exact hci⟩
      · exact ⟨him, by rw [hci]; exact hc1ne⟩
      · exact ⟨him, by rw [hci]; exact hc2ne⟩
  have hd1 : Disjoint S N1 := by
    rw [Finset.disjoint_left]
    intro i hiS hiN
    simp only [hS, coloredSet, Finset.mem_filter] at hiS
    simp only [hN1, Finset.mem_filter] at hiN
    have hk1 := hkeep i hiS.2
    rcases hf i with h | ⟨h1, _⟩
    · exact hiS.2 h
    · apply h1
      rw [← hk1]
      exact hiN.2
  have hd2 : Disjoint (S ∪ N1) N2 := by
    rw [Finset.disjoint_left]
    intro i hiS hiN
    simp only [hN2, Finset.mem_filter] at hiN
    rcases Finset.mem_union.mp hiS with hi | hi
    · simp only [hS, coloredSet, Finset.mem_filter] at hi
      have hk1 := hkeep i hi.2
      rcases hf i with h | ⟨_, h2⟩
      · exact hi.2 h
      · apply h2
        rw [← hk1]
        exact hiN.2
    · simp only [hN1, Finset.mem_filter] at hi
      apply hne
      rw [← hi.2, ← hiN.2]
  rw [hunion, Finset.card_union_of_disjoint hd2, Finset.card_union_of_disjoint hd1]

lemma jplIter_colored_card (G : Graph) (rng : ℕ → ℕ) (K : ℕ)
    (hdist : DistinctCands G rng K) :
    ∀ k ≤ K, (jplIter G rng k).colored = (coloredSet G (jplIter G rng k).colors).card := by
  intro k
  induction k with
  | zero =>
      intro _
      show (0 : ℕ) = (coloredSet G initColState.colors).card
      rw [show (coloredSet G initColState.colors) = ∅ from by
        unfold coloredSet initColState
        simp]
      rfl
  | succ n ih =>
      intro hk
      have hfresh := jplIter_fresh G rng K hdist n (by omega)
      have hne : roundCand1 G rng n ≠ roundCand2 G rng n :=
        (hdist n (by omega) n (by omega)).2.2
      have hstep := coloredSet_step G rng n hfresh hne
      have hcol : (jplIter G rng (n + 1)).colored
          = (jplIter G rng n).colored
            + countColor G.m (jplIter G rng (n + 1)).colors (roundCand1 G rng n)
            + countColor G.m (jplIter G rng (n + 1)).colors (roundCand2 G rng n) :=
        jplRound_colored G rng (jplIter G rng n)
      rw [hcol, ih (by omega), hstep]

lemma jplIter_proper (G : Graph) (rng : ℕ → ℕ) (K : ℕ) (hsym : SymAdj G)
    (hdist : DistinctCands G rng K) :
    ∀ k ≤ K, ∀ row, row < G.m → ∀ p, p < G.width →
      0 ≤ G.ind row p → G.ind row p < (G.m : ℤ) → G.ind row p ≠ (row : ℤ) →
        ¬ (jplIter G rng k).colors row = -1 →
        ¬ (jplIter G rng k).colors (G.ind row p).toNat = -1 →
        (jplIter G rng k).colors row ≠ (jplIter G rng k).colors (G.ind row p).toNat := by
  intro k
  induction k with
  | zero => intro _ row _ p _ _ _ _ hrow _; exact absurd rfl hrow
  | succ n ih =>
      intro hk row hrowm p hpw h0 hm hne hcr hcc
      have hcm : (G.ind row p).toNat < G.m := by omega
      have hcnat : ((G.ind row p).toNat : ℤ) = G.ind row p := by omega
      have hcner : (G.ind row p).toNat ≠ row := by omega
      rw [jplIter_colors_succ] at hcr hcc ⊢
      have hfresh := jplIter_fresh G rng K hdist n (by omega)
      have hne12 : roundCand1 G rng n ≠ roundCand2 G rng n :=
        (hdist n (by omega) n (by omega)).2.2
      rcases kernel_jpl_result G (roundCand1 G rng n) (roundCand2 G rng n)
          (jplIter G rng n).colors row with hkr | ⟨_, hrunc, hrcase⟩
      · -- row kept its color
        have hor : ¬ (jplIter G rng n).colors row = -1 := by rw [← hkr]; exact hcr
        rcases kernel_jpl_result G (roundCand1 G rng n) (roundCand2 G rng n)
            (jplIter G rng n).colors (G.ind row p).toNat with hkc | ⟨_, hcunc, hccase⟩
        · -- both kept
          rw [hkr, hkc]
          exact ih (by omega) row hrowm p hpw h0 hm hne hor (by rw [← hkc]; exact hcc)
        · -- row kept, neighbour freshly colored
          rcases hfresh row with h | ⟨h1, h2⟩
          · exact absurd h hor
          · rw [hkr]
            rcases hccase with ⟨he, _⟩ | ⟨he, _, _⟩ | he
            · rw [he]; exact h1
            · rw [he]; exact h2
            · exact absurd he hcc
      · -- row freshly colored
        rcases kernel_jpl_result G (roundCand1 G rng n) (roundCand2 G rng n)
            (jplIter G rng n).colors (G.ind row p).toNat with hkc | ⟨_, hcunc, hccase⟩
        · -- neighbour kept
          have hoc : ¬ (jplIter G rng n).colors (G.ind row p).toNat = -1 := by
            rw [← hkc]; exact hcc
          rcases hfresh (G.ind row p).toNat with h | ⟨h1, h2⟩
          · exact absurd h hoc
          · rw [hkc]
            rcases hrcase with ⟨he, _⟩ | ⟨he, _, _⟩ | he
            · rw [he]; intro hx; exact h1 hx.symm
            · rw [he]; intro hx; exact h2 hx.symm
            · exact absurd he hcr
        · -- both freshly colored this round
          have hrel : jplRelevant G (jplIter G rng n).colors (roundCand1 G rng n)
              (roundCand2 G rng n) row p = true := by
            rw [jplRelevant_iff]
            exact ⟨h0, hm, hne, Or.inl hcunc⟩
          obtain ⟨q, hqw, hq⟩ := hsym row hrowm p hpw h0 hm hne
          have hrelq : jplRelevant G (jplIter G rng n).colors (roundCand1 G rng n)
              (roundCand2 G rng n) (G.ind row p).toNat q = true := by
            rw [jplRelevant_iff, hq]
            refine ⟨by omega, by exact_mod_cast hrowm, ?_, ?_⟩
            · intro hx
              apply hcner
              omega
            · rw [show ((row : ℤ)).toNat = row from by omega]
              exact Or.inl hrunc
          rcases hrcase with ⟨her, hmaxr⟩ | ⟨her, hmaxr, hminr⟩ | her
          · rcases hccase with ⟨hec, hmaxc⟩ | ⟨hec, hmaxc, hminc⟩ | hec
            · -- both color1: both strict local maxima, mutual comparison
              have hlt1 := (rowIsMaxB_iff G _ _ _ row).mp hmaxr p hpw hrel
              have hlt2 := (rowIsMaxB_iff G _ _ _ (G.ind row p).toNat).mp hmaxc q hqw hrelq
              rw [hq, show ((row : ℤ)).toNat = row from by omega] at hlt2
              exact absurd hlt1 (by omega)
            · rw [her, hec]; exact hne12
            · exact absurd hec hcc
          · rcases hccase with ⟨hec, hmaxc⟩ | ⟨hec, hmaxc, hminc⟩ | hec
            · rw [her, hec]; intro hx; exact hne12 hx.symm
            · -- both color2: both strict local minima, mutual comparison
              have hlt1 := (rowIsMinB_iff G _ _ _ row).mp hminr p hpw hrel
              have hlt2 := (rowIsMinB_iff G _ _ _ (G.ind row p).toNat).mp hminc q hqw hrelq
              rw [hq, show ((row : ℤ)).toNat = row from by omega] at hlt2
              exact absurd hlt1 (by omega)
            · exact absurd hec hcc
          · exact absurd her hcr

lemma jplIter_complete (G : Graph) (rng : ℕ → ℕ) (K : ℕ)
    (hdist : DistinctCands G rng K) (hterm : (jplIter G rng K).colored = G.m) :
    ∀ row < G.m, ¬ (jplIter G rng K).colors row = -1 := by
  have hcard := jplIter_colored_card G rng K hdist K le_rfl
  rw [hterm] at hcard
  have hsub : coloredSet G (jplIter G rng K).colors ⊆ Finset.range G.m :=
    Finset.filter_subset _ _
  have hfull : coloredSet G (jplIter G rng K).colors = Finset.range G.m := by
    apply Finset.eq_of_subset_of_card_le hsub
    rw [← hcard, Finset.card_range]
  intro row hrow
  have hmem : row ∈ coloredSet G (jplIter G rng K).colors := by
    rw [hfull]
    exact Finset.mem_range.mpr hrow
  exact (Finset.mem_filter.mp hmem).2

lemma uncolored_antitone (G : Graph) (rng : ℕ → ℕ) (k : ℕ) :
    uncoloredSet G (jplIter G rng (k + 1)).colors ⊆ uncoloredSet G (jplIter G rng k).colors := by
  intro i hi
  simp only [uncoloredSet, Finset.mem_filter, Finset.mem_range] at hi ⊢
  refine ⟨hi.1, ?_⟩
  by_contra hcol
  have := kernel_jpl_keep G (roundCand1 G rng k) (roundCand2 G rng k)
    (jplIter G rng k).colors i hcol
  rw [jplIter_colors_succ] at hi
  rw [this] at hi
  exact hcol hi.2

lemma jplRound_progress (G : Graph) (rng : ℕ → ℕ) (K : ℕ) (hinj : InjHash G)
    (hdist : DistinctCands G rng K) (k : ℕ) (hk : k < K)
    (hne : (uncoloredSet G (jplIter G rng k).colors).Nonempty) :
    uncoloredSet G (jplIter G rng (k + 1)).colors ⊂ uncoloredSet G (jplIter G rng k).colors := by
  obtain ⟨r, hrU, hrmax⟩ := Finset.exists_max_image (uncoloredSet G (jplIter G rng k).colors)
    (fun i => G.hash i) hne
  have hrU' := hrU
  simp only [uncoloredSet, Finset.mem_filter, Finset.mem_range] at hrU'
  have hfresh := jplIter_fresh G rng K hdist k hk
  refine Finset.ssubset_iff_of_subset (uncolored_antitone G rng k) |>.mpr ⟨r, hrU, ?_⟩
  -- r becomes colored this round: it is the strict local maximum of its neighbourhood
  have hmax : rowIsMaxB G (jplIter G rng k).colors (roundCand1 G rng k)
      (roundCand2 G rng k) r = true := by
    rw [rowIsMaxB_iff]
    intro p hpw hrel
    rw [jplRelevant_iff] at hrel
    obtain ⟨h0, hm, hnediag, hcol⟩ := hrel
    have hcolm : (G.ind r p).toNat < G.m := by omega
    have hcunc : (jplIter G rng k).colors (G.ind r p).toNat = -1 := by
      rcases hcol with h | h | h
      · exact h
      · rcases hfresh (G.ind r p).toNat with hx | ⟨hx, _⟩
        · exact hx
        · exact absurd h hx
      · rcases hfresh (G.ind r p).toNat with hx | ⟨_, hx⟩
        · exact hx
        · exact absurd h hx
    have hmemU : (G.ind r p).toNat ∈ uncoloredSet G (jplIter G rng k).colors := by
      simp only [uncoloredSet, Finset.mem_filter, Finset.mem_range]
      exact ⟨hcolm, hcunc⟩
    have hle := hrmax (G.ind r p).toNat hmemU
    have hnecol : (G.ind r p).toNat ≠ r := by omega
    rcases lt_or_eq_of_le hle with h | h
    · exact h
    · exact absurd (hinj _ hcolm _ hrU'.1 h) hnecol
  intro hcontra
  simp only [uncoloredSet, Finset.mem_filter, Finset.mem_range] at hcontra
  rw [jplIter_colors_succ] at hcontra
  have hc1ne : roundCand1 G rng k ≠ -1 := by
    have := roundCand1_nonneg G rng k
    omega
  apply hc1ne
  rw [← hcontra.2]
  unfold kernel_jpl
  rw [if_pos ⟨hrU'.1, hrU'.2⟩, if_pos hmax]

lemma jpl_terminates (G : Graph) (rng : ℕ → ℕ) (hinj : InjHash G)
    (hdist : DistinctCandsAll G rng) :
    ∃ k ≤ G.m, (jplIter G rng k).colored = G.m := by
  have hstep : ∀ k, (uncoloredSet G (jplIter G rng k).colors).card ≠ 0 →
      (uncoloredSet G (jplIter G rng (k + 1)).colors).card
        < (uncoloredSet G (jplIter G rng k).colors).card := by
    intro k hk
    apply Finset.card_lt_card
    apply jplRound_progress G rng (k + 1) hinj (hdist (k + 1)) k (by omega)
    rw [Finset.nonempty_iff_ne_empty]
    intro he
    rw [he] at hk
    exact hk rfl
  have hbound : ∀ k, (∃ j ≤ k, (uncoloredSet G (jplIter G rng j).colors).card = 0) ∨
      (uncoloredSet G (jplIter G rng k).colors).card + k ≤ G.m := by
    intro k
    induction k with
    | zero =>
        right
        have : uncoloredSet G (jplIter G rng 0).colors ⊆ Finset.range G.m :=
          Finset.filter_subset _ _
        have := Finset.card_le_card this
        rw [Finset.card_range] at this
        omega
    | succ n ih =>
        rcases ih with ⟨j, hj, hz⟩ | hle
        · exact Or.inl ⟨j, by omega, hz⟩
        · by_cases hz : (uncoloredSet G (jplIter G rng n).colors).card = 0
          · exact Or.inl ⟨n, by omega, hz⟩
          · right
            have := hstep n hz
            omega
  have hfin : ∃ j ≤ G.m, (uncoloredSet G (jplIter G rng j).colors).card = 0 := by
    rcases hbound G.m with ⟨j, hj, hz⟩ | hle
    · exact ⟨j, hj, hz⟩
    · exact ⟨G.m, le_rfl, by omega⟩
  obtain ⟨j, hj, hz⟩ := hfin
  refine ⟨j, hj, ?_⟩
  have hcard := jplIter_colored_card G rng j (hdist j) j le_rfl
  have hpart : (coloredSet G (jplIter G rng j).colors).card
      + (uncoloredSet G (jplIter G rng j).colors).card = G.m := by
    unfold coloredSet uncoloredSet
    have hfc := Finset.filter_card_add_filter_neg_card_eq_card (s := Finset.range G.m)
      (p := fun i => (jplIter G rng j).colors i = -1)
    rw [Finset.card_range] at hfc
    omega
  rw [hcard]
  omega

/-! ### Remaining helper lemmas -/

lemma fwdUpTo_frozen (A : SparseMatrix) (r x : Vec) (hv : validBlocks A) (b row : ℕ)
    (hrow : row < A.offsets (b + 1)) :
    ∀ j, b ≤ j → j + 1 ≤ A.nblocks → fwdUpTo A r x j row = fwdUpTo A r x b row := by
  intro j
  induction j with
  | zero => intro hb _; rw [Nat.le_zero.mp hb]
  | succ n ih =>
      intro hb hn1
      rcases Nat.eq_or_lt_of_le hb with he | hlt
      · rw [← he]
      · rw [fwdUpTo_succ]
        unfold kernel_symgs_sweep
        have hmono := offsets_mono A hv (n + 1) (by omega) (b + 1) (by omega)
        have hno : ¬ (A.offsets (n + 1) ≤ row ∧ row < A.offsets (n + 1) + A.sizes (n + 1)) := by
          omega
        rw [if_neg hno]
        exact ih (by omega) (by omega)

lemma roundCand1_eq (G : Graph) (rng : ℕ → ℕ) (k : ℕ) :
    roundCand1 G rng k
      = if 2 * k < 8 then ((rng (2 * k) % 8 : ℕ) : ℤ) else ((2 * k : ℕ) : ℤ) := by
  unfold roundCand1 cand1
  rw [jplIter_nblocks, jplIter_t]

lemma roundCand2_eq (G : Graph) (rng : ℕ → ℕ) (k : ℕ) :
    roundCand2 G rng k
      = if 2 * k < 8 then ((rng (2 * k + 1) % 8 : ℕ) : ℤ) else ((2 * k : ℕ) : ℤ) + 1 := by
  unfold roundCand2 cand2
  rw [jplIter_nblocks, jplIter_t]

lemma symgsHaloStage_spec (A : SparseMatrix) (H : HaloMatrix) (y : Vec) (i : ℕ)
    (hi : i < H.halo_rows)
    (hinj : ∀ i1 < H.halo_rows, ∀ i2 < H.halo_rows,
      A.perm (H.halo_row_ind i1) = A.perm (H.halo_row_ind i2) → i1 = i2) :
    (A.perm (H.halo_row_ind i) < A.sizes 0 →
      symgsHaloStage A H y (A.perm (H.halo_row_ind i))
        = y (A.perm (H.halo_row_ind i))
          + haloRowSum H A.ell_width A.n y i * A.inv_diag (H.halo_row_ind i)) ∧
    (A.sizes 0 ≤ A.perm (H.halo_row_ind i) →
      symgsHaloStage A H y (A.perm (H.halo_row_ind i)) = y (A.perm (H.halo_row_ind i))) := by
  unfold symgsHaloStage kernel_symgs_halo
  have hfind : (List.range H.halo_rows).find?
      (fun i' => A.perm (H.halo_row_ind i') == A.perm (H.halo_row_ind i)) = some i := by
    have hsome : ((List.range H.halo_rows).find?
        (fun i' => A.perm (H.halo_row_ind i') == A.perm (H.halo_row_ind i))).isSome := by
      rw [List.find?_isSome]
      exact ⟨i, List.mem_range.mpr hi, by simp⟩
    obtain ⟨i2, hi2⟩ := Option.isSome_iff_exists.mp hsome
    have hmem := List.mem_of_find?_eq_some hi2
    rw [List.mem_range] at hmem
    have hpred := List.find?_some hi2
    have heq : A.perm (H.halo_row_ind i2) = A.perm (H.halo_row_ind i) := by
      simpa using hpred
    rw [hi2, hinj i2 hmem i hi heq]
  rw [hfind]
  constructor
  · intro hlt
    show (if A.perm (H.halo_row_ind i) < A.sizes 0
        then y (A.perm (H.halo_row_ind i))
          + haloRowSum H A.ell_width A.n y i * A.inv_diag (H.halo_row_ind i)
        else y (A.perm (H.halo_row_ind i)))
      = y (A.perm (H.halo_row_ind i))
        + haloRowSum H A.ell_width A.n y i * A.inv_diag (H.halo_row_ind i)
    rw [if_pos hlt]
  · intro hge
    show (if A.perm (H.halo_row_ind i) < A.sizes 0
        then y (A.perm (H.halo_row_ind i))
          + haloRowSum H A.ell_width A.n y i * A.inv_diag (H.halo_row_ind i)
        else y (A.perm (H.halo_row_ind i)))
      = y (A.perm (H.halo_row_ind i))
    rw [if_neg (by omega)]

lemma fwdPhase_row_char (A : SparseMatrix) (r x : Vec) (hv : validBlocks A)
    (i : ℕ) (h1 : 1 ≤ i) (hi : i < A.nblocks) (row : ℕ) (hrow : inBlock A i row) :
    fwdPhase A r x row
      = (r row - Finset.sum (Finset.range A.ell_width)
          (sweepTerm A A.n (fwdUpTo A r x (i - 1)) row)) * A.inv_diag row := by
  have hofi := hv.2.1 i hi
  have hrow1 : row < A.offsets (i + 1) := by
    have := hrow.2
    omega
  have hfr : fwdUpTo A r x (A.nblocks - 1) row = fwdUpTo A r x i row :=
    fwdUpTo_frozen A r x hv i row hrow1 (A.nblocks - 1) (by omega) (by omega)
  show fwdUpTo A r x (A.nblocks - 1) row = _
  rw [hfr]
  obtain ⟨i', hi'⟩ : ∃ i', i = i' + 1 := ⟨i - 1, by omega⟩
  subst hi'
  rw [fwdUpTo_succ]
  unfold kernel_symgs_sweep
  rw [if_pos (show A.offsets (i' + 1) ≤ row ∧ row < A.offsets (i' + 1) + A.sizes (i' + 1)
    from hrow)]
  rw [sweepRow_eq]
  rfl

lemma zgFwd_block0 (A : SparseMatrix) (r x : Vec) (hv : validBlocks A)
    (hnb : 1 ≤ A.nblocks) (row : ℕ) (hrow : row < A.sizes 0) :
    zgFwd A r x row = r row * A.inv_diag row := by
  have h1 := hv.2.1 0 hnb
  have h2 := hv.1
  have hrow1 : row < A.offsets (0 + 1) := by omega
  have hfr : zgFwdUpTo A r x (A.nblocks - 1) row = zgFwdUpTo A r x 0 row :=
    zgFwdUpTo_frozen A r x hv 0 row hrow1 (A.nblocks - 1) (by omega) (by omega)
  show zgFwdUpTo A r x (A.nblocks - 1) row = _
  rw [hfr]
  show kernel_pointwise_mult A (A.sizes 0) r x row = _
  unfold kernel_pointwise_mult
  rw [if_pos hrow]

lemma zgFwd_row_char (A : SparseMatrix) (r x : Vec) (hv : validBlocks A)
    (i : ℕ) (h1 : 1 ≤ i) (hi : i < A.nblocks) (row : ℕ) (hrow : inBlock A i row) :
    zgFwd A r x row
      = (r row - Finset.sum (Finset.range (A.diag_idx row))
          (fwdZeroTerm A (A.offsets i) (zgFwdUpTo A r x (i - 1)) row))
        / A.ell_val (A.diag_idx row) row := by
  have hofi := hv.2.1 i hi
  have hrow1 : row < A.offsets (i + 1) := by
    have := hrow.2
    omega
  have hfr : zgFwdUpTo A r x (A.nblocks - 1) row = zgFwdUpTo A r x i row :=
    zgFwdUpTo_frozen A r x hv i row hrow1 (A.nblocks - 1) (by omega) (by omega)
  show zgFwdUpTo A r x (A.nblocks - 1) row = _
  rw [hfr]
  obtain ⟨i', hi'⟩ : ∃ i', i = i' + 1 := ⟨i - 1, by omega⟩
  subst hi'
  rw [zgFwdUpTo_succ]
  unfold kernel_forward_sweep_0
  rw [if_pos (show A.offsets (i' + 1) ≤ row ∧ row < A.offsets (i' + 1) + A.sizes (i' + 1)
    from hrow)]
  rw [forwardZeroRow_eq]
  rfl

lemma tieG2_extrema_false (colors : ℕ → ℤ) (c1 c2 : ℤ) (h : ∀ i, colors i = -1) (row : ℕ)
    (hrow : row < 2) :
    rowIsMaxB tieG2 colors c1 c2 row = false ∧ rowIsMinB tieG2 colors c1 c2 row = false := by
  have hrel : jplRelevant tieG2 colors c1 c2 row 1 = true := by
    rw [jplRelevant_iff]
    refine ⟨?_, ?_, ?_, Or.inl (h _)⟩
    · interval_cases row <;> decide
    · interval_cases row <;> decide
    · interval_cases row <;> decide
  have hhash : tieG2.hash (tieG2.ind row 1).toNat = tieG2.hash row := by
    interval_cases row <;> decide
  constructor
  · rw [Bool.eq_false_iff]
    intro hmax
    have hlt := (rowIsMaxB_iff tieG2 colors c1 c2 row).mp hmax 1 (by decide) hrel
    omega
  · rw [Bool.eq_false_iff]
    intro hmin
    have hlt := (rowIsMinB_iff tieG2 colors c1 c2 row).mp hmin 1 (by decide) hrel
    omega

lemma tieG2_stuck (k : ℕ) :
    (∀ i, (jplIter tieG2 (fun _ => 0) k).colors i = -1) ∧
    (jplIter tieG2 (fun _ => 0) k).colored = 0 := by
  induction k with
  | zero => exact ⟨fun _ => rfl, rfl⟩
  | succ n ih =>
      obtain ⟨hc, hcol⟩ := ih
      have hcolors : ∀ i,
          (jplRound tieG2 (fun _ => 0) (jplIter tieG2 (fun _ => 0) n)).colors i = -1 := by
        intro i
        rw [jplRound_colors]
        unfold kernel_jpl
        by_cases hi : i < tieG2.m ∧ (jplIter tieG2 (fun _ => 0) n).colors i = -1
        · rw [if_pos hi]
          obtain ⟨hmax, hmin⟩ := tieG2_extrema_false (jplIter tieG2 (fun _ => 0) n).colors
            (cand1 (fun _ => 0) (jplIter tieG2 (fun _ => 0) n))
            (cand2 (fun _ => 0) (jplIter tieG2 (fun _ => 0) n)) hc i hi.1
          rw [if_neg (by simp [hmax]), if_neg (by simp [hmin])]
        · rw [if_neg hi]
          exact hc i
      have hcnt : ∀ c : ℤ, 0 ≤ c →
          countColor tieG2.m
            (jplRound tieG2 (fun _ => 0) (jplIter tieG2 (fun _ => 0) n)).colors c = 0 := by
        intro c hc0
        unfold countColor
        rw [List.length_eq_zero, List.filter_eq_nil_iff]
        intro a _
        rw [hcolors a]
        simp only [beq_iff_eq]
        omega
      constructor
      · exact hcolors
      · show (jplRound tieG2 (fun _ => 0) (jplIter tieG2 (fun _ => 0) n)).colored = 0
        rw [jplRound_colored, hcnt _ (cand1_nonneg _ _), hcnt _ (cand2_nonneg _ _)]
        show (jplIter tieG2 (fun _ => 0) n).colored + 0 + 0 = 0
        omega

lemma roundCand1_id (G : Graph) (k : ℕ) : roundCand1 G id k = ((2 * k : ℕ) : ℤ) := by
  rw [roundCand1_eq]
  by_cases h : 2 * k < 8
  · rw [if_pos h]
    rw [show id (2 * k) = 2 * k from rfl, Nat.mod_eq_of_lt h]
  · rw [if_neg h]

lemma roundCand2_id (G : Graph) (k : ℕ) : roundCand2 G id k = ((2 * k : ℕ) : ℤ) + 1 := by
  rw [roundCand2_eq]
  by_cases h : 2 * k < 8
  · rw [if_pos h]
    rw [show id (2 * k + 1) = 2 * k + 1 from rfl, Nat.mod_eq_of_lt (by omega)]
    push_cast
    ring
  · rw [if_neg h]

lemma distinctCands_id (G : Graph) : DistinctCandsAll G id := by
  intro K j hj k hk
  refine ⟨?_, ?_, ?_⟩
  · rw [roundCand1_id G j, roundCand1_id G k]
    intro h
    omega
  · rw [roundCand2_id G j, roundCand2_id G k]
    intro h
    omega
  · rw [roundCand1_id G j, roundCand2_id G k]
    intro h
    omega


/-! ### Concrete-instance facts used to discharge witness hypotheses -/

/-- The 4-row test matrix is properly blocked. -/
lemma properBlocks_Atest0 : properBlocks (Atest 0) := by
  intro b hb row hrow hle p hp h0 hn hne
  unfold inBlock
  have hb2 : b < 2 := hb
  have hp3 : p < 3 := hp
  interval_cases b
  · have hrow2 : row < 2 := hrow
    interval_cases row <;> interval_cases p <;> revert h0 hn hne <;> decide
  · have hrow4 : row < 4 := hrow
    have hle2 : 2 ≤ row := hle
    interval_cases row <;> interval_cases p <;> revert h0 hn hne <;> decide

lemma properBlocks_Atest1 : properBlocks (Atest 1) := by
  intro b hb row hrow hle p hp h0 hn hne
  unfold inBlock
  have hb2 : b < 2 := hb
  have hp3 : p < 3 := hp
  interval_cases b
  · have hrow2 : row < 2 := hrow
    interval_cases row <;> interval_cases p <;> revert h0 hn hne <;> decide
  · have hrow4 : row < 4 := hrow
    have hle2 : 2 ≤ row := hle
    interval_cases row <;> interval_cases p <;> revert h0 hn hne <;> decide

lemma triangularELL_Atest0 : triangularELL (Atest 0) := by
  intro row hrow
  have hrow4 : row < 4 := hrow
  interval_cases row
  · exact ⟨by decide, by decide, fun p hp => absurd hp (Nat.not_lt_zero p),
      fun p hp1 hp2 => by
        have h0 : 0 < p := hp1
        have h3 : p < 3 := hp2
        interval_cases p <;> decide⟩
  · exact ⟨by decide, by decide, fun p hp => absurd hp (Nat.not_lt_zero p),
      fun p hp1 hp2 => by
        have h0 : 0 < p := hp1
        have h3 : p < 3 := hp2
        interval_cases p <;> decide⟩
  · exact ⟨by decide, by decide,
      fun p hp => by
        have h2 : p < 2 := hp
        interval_cases p <;> decide,
      fun p hp1 hp2 => by
        have h0 : 2 < p := hp1
        have h3 : p < 3 := hp2
        omega⟩
  · exact ⟨by decide, by decide,
      fun p hp => by
        have h1 : p < 1 := hp
        interval_cases p <;> decide,
      fun p hp1 hp2 => by
        have h0 : 1 < p := hp1
        have h3 : p < 3 := hp2
        interval_cases p <;> decide⟩

lemma invDiagOk_Atest0 : invDiagOk (Atest 0) := by
  intro row hrow
  have hrow4 : row < 4 := hrow
  interval_cases row <;> norm_num [Atest]

lemma diagNZ_Atest0 : diagNZ (Atest 0) := by
  intro row hrow
  have hrow4 : row < 4 := hrow
  interval_cases row <;> norm_num [Atest]

lemma symAdj_twoG : SymAdj twoG := by
  intro row hrow p hp h0 hm hne
  have hrow2 : row < 2 := hrow
  have hp2 : p < 2 := hp
  interval_cases row <;> interval_cases p
  · exact absurd (by decide) hne
  · exact ⟨1, by decide, by decide⟩
  · exact absurd (by decide) hne
  · exact ⟨1, by decide, by decide⟩

lemma distinctCands_twoG : DistinctCands twoG id 1 := by
  intro j hj k hk
  have hj1 : j < 1 := hj
  have hk1 : k < 1 := hk
  interval_cases j <;> interval_cases k <;> exact ⟨fun _ => rfl, fun _ => rfl, by decide⟩

lemma injHash_oneG : InjHash oneG := by
  intro i hi j hj _
  have hi1 : i < 1 := hi
  have hj1 : j < 1 := hj
  omega

/-! ### Claim theorems -/

/-- C1: for every matrix whose block layout is the one JPLColoring establishes —
consecutive blocks partitioning the rows, every block an independent set under
the stored adjacency, and `ublocks` either `nblocks - 1` (reference mode) or
`nblocks - 2` — `ComputeSYMGS` produces exactly the result of a naive
strictly-sequential row-by-row symmetric Gauss-Seidel sweep (forward pass then
backward pass) over the same matrix and right-hand side, for every right-hand
side and every initial guess. -/
theorem c1_symgs_matches_sequential (A : SparseMatrix) (r x : Vec)
    (hn : A.n = A.m) (hv : validBlocks A) (hp : properBlocks A) (hnb : 1 ≤ A.nblocks)
    (hub : A.ublocks = A.nblocks - 1 ∨ (2 ≤ A.nblocks ∧ A.ublocks = A.nblocks - 2)) :
    ∀ j, ComputeSYMGS A r x j = naiveSYMGS A r x j :=
  fun j => congrFun (computeSYMGS_eq_naive A r x hn hv hp hnb hub) j

theorem c1_witness :
    (Atest 1).n = (Atest 1).m ∧ validBlocks (Atest 1) ∧ properBlocks (Atest 1) ∧
      1 ≤ (Atest 1).nblocks ∧ (Atest 1).ublocks = (Atest 1).nblocks - 1 ∧
      ComputeSYMGS (Atest 1) rts xts 0 = naiveSYMGS (Atest 1) rts xts 0 :=
  ⟨rfl, by unfold validBlocks; decide,
    properBlocks_Atest1, by decide, rfl,
    c1_symgs_matches_sequential (Atest 1) rts xts rfl (by unfold validBlocks; decide)
      properBlocks_Atest1 (by decide) (Or.inl rfl) 0⟩

/-- C2 counterexample: on the well-formed symmetric pentagon graph `pentG`
(hashes all distinct), with the random stream nominating colors `(3,5)` then
`(6,3)`, the round loop terminates after round 2 (`colored` reaches `m` exactly),
yet rows 0 and 4 — joined by the stored off-diagonal entry `ind 0 2 = 4` — both
end with color 3: the final assignment is not a proper distance-1 coloring. -/
theorem c2_counterexample :
    (jplIter pentG pentRng 2).colored = pentG.m ∧
    (jplIter pentG pentRng 1).colored ≠ pentG.m ∧
    (jplIter pentG pentRng 0).colored ≠ pentG.m ∧
    pentG.ind 0 2 = 4 ∧
    (0 ≤ pentG.ind 0 2 ∧ pentG.ind 0 2 < (pentG.m : ℤ) ∧ pentG.ind 0 2 ≠ (0 : ℤ)) ∧
    (jplIter pentG pentRng 2).colors 0 = 3 ∧
    (jplIter pentG pentRng 2).colors 4 = 3 := by decide

/-- C2 (amended): provided the adjacency is symmetric and no candidate color is
ever repeated (within a round or across rounds), then after the round loop
terminates the color assignment is a proper distance-1 coloring: for every
stored valid off-diagonal entry `(row, col)`, `color[row] ≠ color[col]`. -/
theorem c2_proper_coloring (G : Graph) (rng : ℕ → ℕ) (K : ℕ)
    (hsym : SymAdj G) (hdist : DistinctCands G rng K)
    (hterm : (jplIter G rng K).colored = G.m) :
    ∀ row < G.m, ∀ p < G.width,
      0 ≤ G.ind row p → G.ind row p < (G.m : ℤ) → G.ind row p ≠ (row : ℤ) →
        (jplIter G rng K).colors row ≠ (jplIter G rng K).colors (G.ind row p).toNat := by
  intro row hrow p hp h0 hm hne
  have hcomp := jplIter_complete G rng K hdist hterm
  exact jplIter_proper G rng K hsym hdist K le_rfl row hrow p hp h0 hm hne
    (hcomp row hrow) (hcomp _ (by omega))

theorem c2_witness :
    SymAdj twoG ∧ DistinctCands twoG id 1 ∧ (jplIter twoG id 1).colored = twoG.m ∧
      (jplIter twoG id 1).colors 0 ≠ (jplIter twoG id 1).colors (twoG.ind 0 1).toNat :=
  ⟨symAdj_twoG, distinctCands_twoG, by decide,
    c2_proper_coloring twoG id 1 symAdj_twoG distinctCands_twoG
      (by decide) 0 (by decide) 1 (by decide) (by decide) (by decide) (by decide)⟩

/-- C3 counterexample: on `tieG3` (rows 0 and 1 adjacent with equal hashes,
row 2 isolated) with a stream that nominates color 3 in three different rounds,
the recorded counts re-count row 2 until `colored` reaches `m = 3` and the loop
exits — although rows 0 and 1 still have color `-1`. -/
theorem c3_counterexample :
    (jplIter tieG3 tieRng3 3).colored = tieG3.m ∧
    (jplIter tieG3 tieRng3 2).colored ≠ tieG3.m ∧
    (jplIter tieG3 tieRng3 1).colored ≠ tieG3.m ∧
    (jplIter tieG3 tieRng3 0).colored ≠ tieG3.m ∧
    (jplIter tieG3 tieRng3 3).colors 0 = -1 := by decide

/-- C3 (amended): provided no candidate color is ever repeated, when the round
loop terminates (`colored = m`) every row has a color different from `-1`; and
unconditionally, the recorded block sizes sum to `localNumberOfRows`. -/
theorem c3_completeness (G : Graph) (rng : ℕ → ℕ) (K : ℕ)
    (hdist : DistinctCands G rng K) (hterm : (jplIter G rng K).colored = G.m) :
    (∀ row < G.m, (jplIter G rng K).colors row ≠ -1) ∧
    Finset.sum (Finset.range (jplIter G rng K).nblocks) (jplIter G rng K).sizes = G.m := by
  refine ⟨jplIter_complete G rng K hdist hterm, ?_⟩
  rw [jplIter_sizes_sum G rng K, hterm]

theorem c3_witness :
    DistinctCands twoG id 1 ∧ (jplIter twoG id 1).colored = twoG.m ∧
      (jplIter twoG id 1).colors 0 ≠ -1 ∧
      Finset.sum (Finset.range (jplIter twoG id 1).nblocks) (jplIter twoG id 1).sizes
        = twoG.m :=
  ⟨distinctCands_twoG, by decide,
    (c3_completeness twoG id 1 distinctCands_twoG (by decide)).1 0 (by decide),
    (c3_completeness twoG id 1 distinctCands_twoG (by decide)).2⟩

/-- C4 counterexample: in the forward pass of `ComputeSYMGS` on `Ac4` (blocks of
one row each), row 1 of block 1 stores the off-diagonal column 2, which is not
below the block offset 1; with `x[2] = 5` the computed value (−5) differs from
the value claimed by the specification, where the sum is restricted to columns
below the block's own starting offset (which yields 0). -/
theorem c4_counterexample :
    fwdPhase Ac4 (fun _ => 0) xc4 1
      ≠ ((fun _ => (0 : ℚ)) 1 - Finset.sum (Finset.range Ac4.ell_width)
          (fun p => if 0 ≤ Ac4.ell_col_ind p 1 ∧ Ac4.ell_col_ind p 1 < (Ac4.offsets 1 : ℤ) ∧
              Ac4.ell_col_ind p 1 ≠ (1 : ℤ) then
            Ac4.ell_val p 1 * (fwdUpTo Ac4 (fun _ => 0) xc4 0) (Ac4.ell_col_ind p 1).toNat
          else 0)) * Ac4.inv_diag 1 := by
  have hval : fwdPhase Ac4 (fun _ => 0) xc4 1 = -5 := by
    rw [fwdPhase_row_char Ac4 (fun _ => 0) xc4 (by unfold validBlocks; decide) 1 le_rfl
      (by decide) 1 (by unfold inBlock; decide)]
    have h2 : fwdUpTo Ac4 (fun _ => 0) xc4 0 2 = 5 := by decide
    rw [show Ac4.ell_width = 2 from rfl, Finset.sum_range_succ, Finset.sum_range_succ,
      Finset.sum_range_zero]
    norm_num [sweepTerm, show Ac4.ell_col_ind 0 1 = 1 from rfl,
      show Ac4.ell_col_ind 1 1 = 2 from rfl, show Ac4.ell_val 1 1 = 1 from rfl,
      show Ac4.n = 3 from rfl, show Ac4.inv_diag 1 = 1 from rfl,
      show Int.toNat 2 = 2 from rfl, h2]
  have hclaimed : ((fun _ => (0 : ℚ)) 1 - Finset.sum (Finset.range Ac4.ell_width)
      (fun p => if 0 ≤ Ac4.ell_col_ind p 1 ∧ Ac4.ell_col_ind p 1 < (Ac4.offsets 1 : ℤ) ∧
          Ac4.ell_col_ind p 1 ≠ (1 : ℤ) then
        Ac4.ell_val p 1 * (fwdUpTo Ac4 (fun _ => 0) xc4 0) (Ac4.ell_col_ind p 1).toNat
      else 0)) * Ac4.inv_diag 1 = 0 := by
    norm_num [Ac4, Finset.sum_range_succ]
  rw [hval, hclaimed]
  norm_num

/-- C4 (amended): in the forward pass of `ComputeSYMGS`, for every block `i`
other than block 0, each row of the block computes `r[row]` minus the sum over
all stored off-diagonal columns with `0 ≤ col < localNumberOfColumns` (with no
restriction to columns below the block offset) of `A[row,col] · x[col]`, where
`x` is the vector state after the preceding blocks; the sum is multiplied by
`invDiag[row]` and stored into `x[row]`. -/
theorem c4_forward_row (A : SparseMatrix) (r x : Vec) (hv : validBlocks A)
    (i : ℕ) (h1 : 1 ≤ i) (hi : i < A.nblocks) (row : ℕ)
    (hoff : A.offsets i ≤ row) (hsz : row < A.offsets i + A.sizes i) :
    fwdPhase A r x row
      = (r row - Finset.sum (Finset.range A.ell_width)
          (sweepTerm A A.n (fwdUpTo A r x (i - 1)) row)) * A.inv_diag row :=
  fwdPhase_row_char A r x hv i h1 hi row ⟨hoff, hsz⟩

theorem c4_witness :
    validBlocks Ac4 ∧ 1 ≤ 1 ∧ 1 < Ac4.nblocks ∧ Ac4.offsets 1 ≤ 1 ∧
      1 < Ac4.offsets 1 + Ac4.sizes 1 ∧
      fwdPhase Ac4 rts xts 1
        = (rts 1 - Finset.sum (Finset.range Ac4.ell_width)
            (sweepTerm Ac4 Ac4.n (fwdUpTo Ac4 rts xts 0) 1)) * Ac4.inv_diag 1 :=
  ⟨by unfold validBlocks; decide, le_rfl, by decide, by decide, by decide,
    c4_forward_row Ac4 rts xts (by unfold validBlocks; decide) 1 le_rfl (by decide) 1
      (by decide) (by decide)⟩

/-- C5: for every properly blocked matrix with triangular ELL ordering, correct
diagonal reciprocals and nonzero diagonal, running the general-guess solver
`ComputeSYMGS` with `x` initialized to the zero vector produces exactly the
same result as the dedicated zero-guess variant `ComputeSYMGSZeroGuess` on the
same matrix and right-hand side. -/
theorem c5_zero_guess_equivalence (A : SparseMatrix) (r x0 : Vec)
    (hx0 : ∀ j, x0 j = 0) (hv : validBlocks A) (hp : properBlocks A)
    (htri : triangularELL A) (hinv : invDiagOk A) (hd0 : diagNZ A)
    (hmn : A.m ≤ A.n) (hnb : 1 ≤ A.nblocks) (hub : A.ublocks < A.nblocks) :
    ∀ j, ComputeSYMGS A r x0 j = ComputeSYMGSZeroGuess A r x0 j :=
  fun j => congrFun
    (computeSYMGS_eq_zeroGuess A r x0 hx0 hv hp htri hinv hd0 hmn hnb hub) j

theorem c5_witness :
    validBlocks (Atest 0) ∧ properBlocks (Atest 0) ∧ triangularELL (Atest 0) ∧
      invDiagOk (Atest 0) ∧ diagNZ (Atest 0) ∧ (Atest 0).m ≤ (Atest 0).n ∧
      1 ≤ (Atest 0).nblocks ∧ (Atest 0).ublocks < (Atest 0).nblocks ∧
      ComputeSYMGS (Atest 0) rts (fun _ => 0) 0
        = ComputeSYMGSZeroGuess (Atest 0) rts (fun _ => 0) 0 :=
  ⟨by unfold validBlocks; decide, properBlocks_Atest0,
    triangularELL_Atest0, invDiagOk_Atest0, diagNZ_Atest0,
    by decide, by decide, by decide,
    c5_zero_guess_equivalence (Atest 0) rts (fun _ => 0) (fun _ => rfl)
      (by unfold validBlocks; decide) properBlocks_Atest0
      triangularELL_Atest0 invDiagOk_Atest0
      diagNZ_Atest0 (by decide) (by decide) (by decide) 0⟩

/-- C6: in the forward sweep of `ComputeSYMGSZeroGuess`, every row of block 0 is
set exactly to `r[row] * invDiag[row]` with no neighbour terms; every row of a
subsequent block `i` scans only the ELL slots strictly below that row's
diagonal slot (`p < diag_idx row`), accumulates only already-updated lower
contributions (columns `0 ≤ col < offsets i`), and the result is divided by the
row's stored diagonal value rather than multiplied by the precomputed
reciprocal. -/
theorem c6_zero_guess_forward (A : SparseMatrix) (r x : Vec) (hv : validBlocks A)
    (hnb : 1 ≤ A.nblocks) :
    (∀ row < A.sizes 0, zgFwd A r x row = r row * A.inv_diag row) ∧
    (∀ i, 1 ≤ i → i < A.nblocks → ∀ row, A.offsets i ≤ row →
      row < A.offsets i + A.sizes i →
      zgFwd A r x row
        = (r row - Finset.sum (Finset.range (A.diag_idx row))
            (fwdZeroTerm A (A.offsets i) (zgFwdUpTo A r x (i - 1)) row))
          / A.ell_val (A.diag_idx row) row) :=
  ⟨fun row hrow => zgFwd_block0 A r x hv hnb row hrow,
   fun i h1 hi row hoff hsz => zgFwd_row_char A r x hv i h1 hi row ⟨hoff, hsz⟩⟩

theorem c6_witness :
    validBlocks (Atest 1) ∧ 1 ≤ (Atest 1).nblocks ∧ 0 < (Atest 1).sizes 0 ∧
      zgFwd (Atest 1) rts (fun _ => 0) 0 = rts 0 * (Atest 1).inv_diag 0 :=
  ⟨by unfold validBlocks; decide, by decide, by decide,
    (c6_zero_guess_forward (Atest 1) rts (fun _ => 0) (by unfold validBlocks; decide)
      (by decide)).1 0 (by decide)⟩

/-- C7 counterexample: on the 10-vertex path graph with distinct hashes and the
identity random stream, the loop is still running at round 4 (the fifth round,
well within "the first 8 rounds"), yet that round's first candidate color is 8,
not an element of the palette `{0..7}`. -/
theorem c7_counterexample :
    (jplIter pathG id 4).colored ≠ pathG.m ∧
    (jplIter pathG id 3).colored ≠ pathG.m ∧
    (jplIter pathG id 2).colored ≠ pathG.m ∧
    (jplIter pathG id 1).colored ≠ pathG.m ∧
    (jplIter pathG id 0).colored ≠ pathG.m ∧
    roundCand1 pathG id 4 = 8 ∧
    ¬ (0 ≤ roundCand1 pathG id 4 ∧ roundCand1 pathG id 4 < 8) := by decide

/-- C7 (amended): only the first 4 rounds (while fewer than 8 blocks are
recorded) draw both candidate colors from the palette `{0..7}`; from round 4 on,
round `k` nominates exactly `2k` and `2k + 1`, which increase monotonically and
are strictly larger than every candidate of every earlier round — each later
round introduces exactly two brand-new colors. -/
theorem c7_candidate_schedule (G : Graph) (rng : ℕ → ℕ) (k : ℕ) :
    (k < 4 → 0 ≤ roundCand1 G rng k ∧ roundCand1 G rng k < 8 ∧
      0 ≤ roundCand2 G rng k ∧ roundCand2 G rng k < 8) ∧
    (4 ≤ k → roundCand1 G rng k = ((2 * k : ℕ) : ℤ) ∧
      roundCand2 G rng k = ((2 * k : ℕ) : ℤ) + 1 ∧
      ∀ j < k, roundCand1 G rng j < roundCand1 G rng k ∧
        roundCand2 G rng j < roundCand1 G rng k) := by
  constructor
  · intro hk
    have h8 : 2 * k < 8 := by omega
    rw [roundCand1_eq, roundCand2_eq, if_pos h8, if_pos h8]
    have m1 : rng (2 * k) % 8 < 8 := Nat.mod_lt _ (by omega)
    have m2 : rng (2 * k + 1) % 8 < 8 := Nat.mod_lt _ (by omega)
    refine ⟨by omega, by omega, by omega, by omega⟩
  · intro hk
    have h8 : ¬ 2 * k < 8 := by omega
    rw [roundCand1_eq, roundCand2_eq, if_neg h8, if_neg h8]
    refine ⟨rfl, rfl, ?_⟩
    intro j hj
    constructor
    · rw [roundCand1_eq]
      by_cases hj8 : 2 * j < 8
      · rw [if_pos hj8]
        have := Nat.mod_lt (rng (2 * j)) (show 0 < 8 by omega)
        omega
      · rw [if_neg hj8]
        omega
    · rw [roundCand2_eq]
      by_cases hj8 : 2 * j < 8
      · rw [if_pos hj8]
        have := Nat.mod_lt (rng (2 * j + 1)) (show 0 < 8 by omega)
        omega
      · rw [if_neg hj8]
        omega

theorem c7_witness :
    4 ≤ 5 ∧ roundCand1 pathG id 5 = ((2 * 5 : ℕ) : ℤ) ∧ 0 < 5 ∧
      roundCand1 pathG id 0 < roundCand1 pathG id 5 :=
  ⟨by decide, ((c7_candidate_schedule pathG id 5).2 (by decide)).1, by decide,
    (((c7_candidate_schedule pathG id 5).2 (by decide)).2.2 0 (by decide)).1⟩

/-- C8 counterexample: an uncolored row with no relevant neighbour (here the
single isolated vertex of `oneG`) is vacuously both a strict local maximum and
a strict local minimum; the kernel assigns it `color1`, although the claim
("receives color2 exactly when its hash is a strict local minimum") requires it
to receive `color2`. -/
theorem c8_counterexample :
    rowIsMinB oneG (fun _ => -1) 0 1 0 = true ∧
    kernel_jpl oneG 0 1 (fun _ => -1) 0 = 0 ∧ (0 : ℤ) ≠ 1 := by decide

/-- C8 (amended): for an uncolored row and distinct non-sentinel candidate
colors, the kernel assigns `color1` exactly when the row's hash is a strict
local maximum over the relevant neighbourhood (uncolored or candidate-colored
neighbours), assigns `color2` exactly when it is a strict local minimum and not
a maximum, and a tie with any relevant neighbour leaves the row uncolored. -/
theorem c8_kernel_rule (G : Graph) (c1 c2 : ℤ) (colors : ℕ → ℤ) (row : ℕ)
    (hrow : row < G.m) (hunc : colors row = -1)
    (h1 : c1 ≠ -1) (h2 : c2 ≠ -1) (h12 : c1 ≠ c2) :
    (kernel_jpl G c1 c2 colors row = c1 ↔ rowIsMaxB G colors c1 c2 row = true) ∧
    (kernel_jpl G c1 c2 colors row = c2 ↔
      (rowIsMinB G colors c1 c2 row = true ∧ rowIsMaxB G colors c1 c2 row = false)) ∧
    (∀ p < G.width, jplRelevant G colors c1 c2 row p = true →
      G.hash (G.ind row p).toNat = G.hash row → kernel_jpl G c1 c2 colors row = -1) := by
  have hcase := kernel_jpl_result G c1 c2 colors row
  unfold kernel_jpl
  rw [if_pos ⟨hrow, hunc⟩]
  refine ⟨?_, ?_, ?_⟩
  · cases hmax : rowIsMaxB G colors c1 c2 row
    · rw [if_neg (by simp)]
      cases hmin : rowIsMinB G colors c1 c2 row
      · rw [if_neg (by simp)]
        simp [h1.symm]
      · rw [if_pos rfl]
        simp [Ne.symm h12]
    · rw [if_pos rfl]
      simp
  · cases hmax : rowIsMaxB G colors c1 c2 row
    · rw [if_neg (by simp)]
      cases hmin : rowIsMinB G colors c1 c2 row
      · rw [if_neg (by simp)]
        simp [h2.symm]
      · rw [if_pos rfl]
        simp
    · rw [if_pos rfl]
      simp [h12]
  · intro p hp hrel heq
    have hmax : rowIsMaxB G colors c1 c2 row = false := by
      rw [Bool.eq_false_iff]
      intro hmax
      have := (rowIsMaxB_iff G colors c1 c2 row).mp hmax p hp hrel
      omega
    have hmin : rowIsMinB G colors c1 c2 row = false := by
      rw [Bool.eq_false_iff]
      intro hmin
      have := (rowIsMinB_iff G colors c1 c2 row).mp hmin p hp hrel
      omega
    rw [hmax, hmin]
    simp

theorem c8_witness :
    0 < twoG.m ∧ (fun _ => (-1 : ℤ)) 0 = -1 ∧ (5 : ℤ) ≠ -1 ∧ (7 : ℤ) ≠ -1 ∧
      (5 : ℤ) ≠ 7 ∧
      (kernel_jpl twoG 5 7 (fun _ => -1) 0 = 5 ↔
        rowIsMaxB twoG (fun _ => -1) 5 7 0 = true) :=
  ⟨by decide, rfl, by decide, by decide, by decide,
    (c8_kernel_rule twoG 5 7 (fun _ => -1) 0 (by decide) rfl (by decide) (by decide)
      (by decide)).1⟩

/-- C9 counterexample: halo row 0 of `Hh9` targets local row 0, whose permuted
position is 1, outside block 0 (`sizes 0 = 1`); its ghost column holds a
nonzero contribution, yet `kernel_symgs_halo` leaves the vector unchanged —
contradicting the claim that every local row with at least one halo neighbour
is updated by the corrector. -/
theorem c9_counterexample :
    symgsHaloStage Ah9 Hh9 yh9 (Ah9.perm (Hh9.halo_row_ind 0))
        = yh9 (Ah9.perm (Hh9.halo_row_ind 0)) ∧
    yh9 (Ah9.perm (Hh9.halo_row_ind 0))
        ≠ yh9 (Ah9.perm (Hh9.halo_row_ind 0))
          + haloRowSum Hh9 Ah9.ell_width Ah9.n yh9 0 * Ah9.inv_diag (Hh9.halo_row_ind 0) := by
  refine ⟨rfl, ?_⟩
  show yh9 1 ≠ yh9 1 + haloRowSum Hh9 Ah9.ell_width Ah9.n yh9 0 * Ah9.inv_diag 0
  unfold haloRowSum
  norm_num [Hh9, Ah9, yh9, List.range_succ]
  decide

/-- C9 (amended): assuming the halo targets are pairwise distinct, the boundary
corrector updates exactly those halo rows whose permuted position lies inside
block 0 (`perm[row] < sizes 0`): such a target receives its old value plus
`invDiag[row] · Σ (−haloValue · x[ghostCol])` over the stored ghost columns,
while a halo row whose permuted position lies outside block 0 is left
unchanged. -/
theorem c9_halo_correction (A : SparseMatrix) (H : HaloMatrix) (y : Vec) (i : ℕ)
    (hi : i < H.halo_rows)
    (hinj : ∀ i1 < H.halo_rows, ∀ i2 < H.halo_rows,
      A.perm (H.halo_row_ind i1) = A.perm (H.halo_row_ind i2) → i1 = i2) :
    (A.perm (H.halo_row_ind i) < A.sizes 0 →
      symgsHaloStage A H y (A.perm (H.halo_row_ind i))
        = y (A.perm (H.halo_row_ind i))
          + haloRowSum H A.ell_width A.n y i * A.inv_diag (H.halo_row_ind i)) ∧
    (A.sizes 0 ≤ A.perm (H.halo_row_ind i) →
      symgsHaloStage A H y (A.perm (H.halo_row_ind i)) = y (A.perm (H.halo_row_ind i))) ∧
    haloRowSum H A.ell_width A.n y i
      = 0 - Finset.sum (Finset.range A.ell_width)
          (fun p => if 0 ≤ H.halo_col_ind p i ∧ H.halo_col_ind p i < (A.n : ℤ) then
            H.halo_val p i * y (H.halo_col_ind p i).toNat else 0) := by
  obtain ⟨ha, hb⟩ := symgsHaloStage_spec A H y i hi hinj
  refine ⟨ha, hb, ?_⟩
  unfold haloRowSum
  rw [foldl_ite_sub_range]

theorem c9_witness :
    0 < Hh9.halo_rows ∧
      Ah9w.perm (Hh9.halo_row_ind 0) < Ah9w.sizes 0 ∧
      symgsHaloStage Ah9w Hh9 yh9 (Ah9w.perm (Hh9.halo_row_ind 0))
        = yh9 (Ah9w.perm (Hh9.halo_row_ind 0))
          + haloRowSum Hh9 Ah9w.ell_width Ah9w.n yh9 0 * Ah9w.inv_diag (Hh9.halo_row_ind 0) :=
  ⟨by decide, by decide,
    (c9_halo_correction Ah9w Hh9 yh9 0 (by decide)
      (fun i1 h1 i2 h2 _ => by have g1 : i1 < 1 := h1; have g2 : i2 < 1 := h2; omega)).1 (by decide)⟩

/-- C10 counterexample: on `tieG2` — two adjacent rows with equal hash values —
no round ever colors a row, `colored` stays 0 forever, and the round loop of
`JPLColoring` never terminates; the code contains no safety bound and no
coloring-failure error path. -/
theorem c10_counterexample :
    ¬ ∃ k, (jplIter tieG2 (fun _ => 0) k).colored = tieG2.m := by
  rintro ⟨k, hk⟩
  rw [(tieG2_stuck k).2] at hk
  exact absurd hk (by decide)

/-- C10 (amended): provided the row hashes are pairwise distinct and no
candidate color is ever repeated, the round loop terminates: within at most
`m` rounds the `colored` counter reaches `localNumberOfRows` and the loop
exits. -/
theorem c10_termination (G : Graph) (rng : ℕ → ℕ) (hinj : InjHash G)
    (hdist : DistinctCandsAll G rng) :
    ∃ k ≤ G.m, (jplIter G rng k).colored = G.m :=
  jpl_terminates G rng hinj hdist

theorem c10_witness :
    InjHash oneG ∧ DistinctCandsAll oneG id ∧
      ∃ k ≤ oneG.m, (jplIter oneG id k).colored = oneG.m :=
  ⟨injHash_oneG, distinctCands_id oneG,
    c10_termination oneG id injHash_oneG (distinctCands_id oneG)⟩

end RocHPCG
